import Mathlib

/-!
Verification of the cycle-tolerant DAG structural analysis engine of the
Astrolabe repository (`backend/astrolabe/analysis/dag.py` together with the
graph construction in `backend/astrolabe/analysis/graph_builder.py`).

A directed graph is embedded as a list of node identifiers plus a list of
directed edges.  The networkx library calls used by the code
(`descendants`, `ancestors`, `topological_sort`, `dag_longest_path`,
`strongly_connected_components`, `condensation`, `subgraph`,
`is_directed_acyclic_graph`) are modelled by executable definitions following
their documented contracts; the functions of `dag.py` and `graph_builder.py`
are translated one by one, with Python exceptions modelled as `Except`.
-/

namespace Astrolabe

/-- A directed graph as handed to the analysis engine: a list of node
identifiers and a list of directed edges `(source, target)`.  Node identifiers
are opaque (`String` in the repository); the development is polymorphic so the
condensation graph (whose nodes are SCC indices, i.e. `Nat`) reuses it. -/
structure DiGraph (α : Type) where
  nodes : List α
  edges : List (α × α)
deriving DecidableEq

variable {α : Type} [DecidableEq α]

/-- The edge relation of a graph. -/
def E (G : DiGraph α) (u v : α) : Prop := (u, v) ∈ G.edges

instance (G : DiGraph α) (u v : α) : Decidable (E G u v) := by
  unfold E; infer_instance

/-- Well-formedness as guaranteed by networkx: the node list has no
duplicates (nodes live in a dict) and every edge endpoint is a node. -/
def Wf (G : DiGraph α) : Prop :=
  G.nodes.Nodup ∧ ∀ e ∈ G.edges, e.1 ∈ G.nodes ∧ e.2 ∈ G.nodes

instance (G : DiGraph α) : Decidable (Wf G) := by
  unfold Wf; infer_instance

/-- `G.predecessors(v)` of networkx: the distinct nodes with an edge into
`v`, in node order. -/
def predecessors (G : DiGraph α) (v : α) : List α :=
  G.nodes.filter (fun u => decide ((u, v) ∈ G.edges))

/-- `G.successors(v)` of networkx. -/
def successors (G : DiGraph α) (v : α) : List α :=
  G.nodes.filter (fun u => decide ((v, u) ∈ G.edges))

/-- `G.in_degree(v)` of networkx: number of distinct predecessors. -/
def in_degree (G : DiGraph α) (v : α) : Nat := (predecessors G v).length

/-- `G.out_degree(v)` of networkx. -/
def out_degree (G : DiGraph α) (v : α) : Nat := (successors G v).length

theorem mem_predecessors {G : DiGraph α} {u v : α} :
    u ∈ predecessors G v ↔ u ∈ G.nodes ∧ (u, v) ∈ G.edges := by
  simp [predecessors]

theorem mem_successors {G : DiGraph α} {u v : α} :
    u ∈ successors G v ↔ u ∈ G.nodes ∧ (v, u) ∈ G.edges := by
  simp [successors]

/-- Abstract reachability: the reflexive-transitive closure of the edge
relation.  This is the semantic notion that the breadth-first computations of
networkx (`descendants`, `ancestors`, …) realise. -/
def Reaches (G : DiGraph α) (u v : α) : Prop := Relation.ReflTransGen (E G) u v

/-- One expansion step of the forward closure: keep the current set and add
the targets of all edges leaving it. -/
def stepSet (G : DiGraph α) (s : List α) : List α :=
  s ++ (G.edges.filter (fun e => decide (e.1 ∈ s))).map Prod.snd

/-- Iterated expansion of the forward closure. -/
def closureAux (G : DiGraph α) : Nat → List α → List α
  | 0, s => s
  | n + 1, s => closureAux G n (stepSet G s)

/-- All nodes reachable from `u` (including `u`), computed by iterating
`stepSet` enough times to reach the fixed point. -/
def reachSet (G : DiGraph α) (u : α) : List α :=
  closureAux G (G.edges.length + 1) [u]

/-- Decides reachability; models the breadth-first searches of networkx. -/
def reachable (G : DiGraph α) (u v : α) : Bool := decide (v ∈ reachSet G u)

theorem mem_stepSet {G : DiGraph α} {s : List α} {x : α} :
    x ∈ stepSet G s ↔ x ∈ s ∨ ∃ e ∈ G.edges, e.1 ∈ s ∧ e.2 = x := by
  simp only [stepSet, List.mem_append, List.mem_map, List.mem_filter,
    decide_eq_true_eq]
  aesop

theorem subset_stepSet {G : DiGraph α} {s : List α} {x : α} (hx : x ∈ s) :
    x ∈ stepSet G s := by
  exact mem_stepSet.mpr (Or.inl hx)

theorem stepSet_congr {G : DiGraph α} {s t : List α}
    (h : ∀ x, x ∈ s ↔ x ∈ t) : ∀ x, x ∈ stepSet G s ↔ x ∈ stepSet G t := by
  intro x
  rw [mem_stepSet, mem_stepSet]
  constructor
  · rintro (hx | ⟨e, he, h1, h2⟩)
    · exact Or.inl ((h x).mp hx)
    · exact Or.inr ⟨e, he, (h e.1).mp h1, h2⟩
  · rintro (hx | ⟨e, he, h1, h2⟩)
    · exact Or.inl ((h x).mpr hx)
    · exact Or.inr ⟨e, he, (h e.1).mpr h1, h2⟩

theorem closureAux_congr {G : DiGraph α} :
    ∀ (n : Nat) {s t : List α}, (∀ x, x ∈ s ↔ x ∈ t) →
      ∀ x, x ∈ closureAux G n s ↔ x ∈ closureAux G n t := by
  intro n
  induction n with
  | zero => intro s t h x; exact h x
  | succ n ih => intro s t h x; exact ih (stepSet_congr h) x

theorem subset_closureAux {G : DiGraph α} :
    ∀ (n : Nat) {s : List α} {x : α}, x ∈ s → x ∈ closureAux G n s := by
  intro n
  induction n with
  | zero => intro s x hx; exact hx
  | succ n ih => intro s x hx; exact ih (subset_stepSet hx)

theorem closureAux_sound {G : DiGraph α} :
    ∀ (n : Nat) {s : List α} {x : α}, x ∈ closureAux G n s →
      ∃ w ∈ s, Reaches G w x := by
  intro n
  induction n with
  | zero => intro s x hx; exact ⟨x, hx, Relation.ReflTransGen.refl⟩
  | succ n ih =>
    intro s x hx
    obtain ⟨w, hw, hreach⟩ := ih hx
    rcases mem_stepSet.mp hw with hw' | ⟨e, he, h1, h2⟩
    · exact ⟨w, hw', hreach⟩
    · subst h2
      exact ⟨e.1, h1, Relation.ReflTransGen.head he hreach⟩

theorem closureAux_of_fixed {G : DiGraph α} {s : List α}
    (hfix : ∀ x, x ∈ stepSet G s → x ∈ s) :
    ∀ (n : Nat) (x : α), x ∈ closureAux G n s ↔ x ∈ s := by
  intro n
  induction n with
  | zero => intro x; exact Iff.rfl
  | succ n ih =>
    intro x
    have hst : ∀ y, y ∈ stepSet G s ↔ y ∈ s :=
      fun y => ⟨hfix y, subset_stepSet⟩
    calc x ∈ closureAux G (n + 1) s
        ↔ x ∈ closureAux G n (stepSet G s) := Iff.rfl
      _ ↔ x ∈ closureAux G n s := closureAux_congr n hst x
      _ ↔ x ∈ s := ih x

/-- Number of elements of the reference list `U` lying in `s`; the measure
showing that the closure iteration reaches its fixed point. -/
def memCount (U s : List α) : Nat := U.countP (fun x => decide (x ∈ s))

theorem memCount_mono {U s t : List α} (h : ∀ x, x ∈ s → x ∈ t) :
    memCount U s ≤ memCount U t := by
  apply List.countP_mono_left
  intro x _ hx
  simpa using h x (by simpa using hx)

theorem memCount_lt {U s t : List α} (hsub : ∀ x, x ∈ s → x ∈ t) {x : α}
    (hxU : x ∈ U) (hxt : x ∈ t) (hxs : x ∉ s) :
    memCount U s < memCount U t := by
  induction U with
  | nil => cases hxU
  | cons a U ih =>
    simp only [memCount, List.countP_cons] at *
    rcases List.mem_cons.mp hxU with rfl | haU
    · have h1 : (decide (x ∈ s)) = false := by simpa using hxs
      have h2 : (decide (x ∈ t)) = true := by simpa using hxt
      rw [h1, h2]
      simp only [if_false, if_true]
      have := memCount_mono (U := U) hsub
      simpa [memCount] using Nat.lt_succ_of_le this
    · have hlt := ih haU
      have hle : (if decide (a ∈ s) = true then 1 else 0) ≤
          (if decide (a ∈ t) = true then 1 else 0) := by
        by_cases ha : a ∈ s
        · simp [ha, hsub a ha]
        · simp [ha]
      omega

theorem mem_of_subset_of_memCount_eq {U s t : List α}
    (hsub : ∀ x, x ∈ s → x ∈ t) (htU : ∀ x, x ∈ t → x ∈ U)
    (heq : memCount U s = memCount U t) : ∀ x, x ∈ t → x ∈ s := by
  intro x hxt
  by_contra hxs
  exact absurd heq (Nat.ne_of_lt (memCount_lt hsub (htU x hxt) hxt hxs))

theorem closureAux_closed {G : DiGraph α} {U : List α}
    (hT : ∀ e ∈ G.edges, e.2 ∈ U) :
    ∀ (n : Nat) (s : List α), (∀ x, x ∈ s → x ∈ U) →
      U.length ≤ memCount U s + n →
      ∀ x, x ∈ stepSet G (closureAux G n s) → x ∈ closureAux G n s := by
  intro n
  induction n with
  | zero =>
    intro s hsU hlen x hx
    have hful : memCount U s = U.length :=
      Nat.le_antisymm (List.countP_le_length _) (by simpa using hlen)
    have hall : ∀ a ∈ U, a ∈ s := by
      have := List.countP_eq_length.mp hful
      intro a ha
      simpa using this a ha
    rcases mem_stepSet.mp hx with h | ⟨e, he, _, h2⟩
    · exact h
    · exact hall x (h2 ▸ hT e he)
  | succ n ih =>
    intro s hsU hlen x hx
    have hstepU : ∀ y, y ∈ stepSet G s → y ∈ U := by
      intro y hy
      rcases mem_stepSet.mp hy with h | ⟨e, he, _, h2⟩
      · exact hsU y h
      · exact h2 ▸ hT e he
    by_cases hfix : ∀ y, y ∈ stepSet G s → y ∈ s
    · have hiff : ∀ y, y ∈ stepSet G s ↔ y ∈ s :=
        fun y => ⟨hfix y, subset_stepSet⟩
      have h1 : ∀ y, y ∈ closureAux G n (stepSet G s) ↔ y ∈ s := by
        intro y
        calc y ∈ closureAux G n (stepSet G s)
            ↔ y ∈ closureAux G n s := closureAux_congr n hiff y
          _ ↔ y ∈ s := closureAux_of_fixed hfix n y
      have hx' : x ∈ stepSet G s := by
        rcases mem_stepSet.mp hx with h | ⟨e, he, h1', h2⟩
        · exact subset_stepSet ((h1 x).mp h)
        · exact mem_stepSet.mpr (Or.inr ⟨e, he, (h1 e.1).mp h1', h2⟩)
      exact (h1 x).mpr (hfix x hx')
    · push_neg at hfix
      obtain ⟨y, hy, hys⟩ := hfix
      have hgrow : memCount U s < memCount U (stepSet G s) :=
        memCount_lt (fun _ => subset_stepSet) (hstepU y hy) hy hys
      exact ih (stepSet G s) hstepU (by omega) x hx

theorem reachSet_head {G : DiGraph α} (u : α) : u ∈ reachSet G u :=
  subset_closureAux _ (List.mem_singleton.mpr rfl)

theorem reachSet_closed {G : DiGraph α} {u x y : α}
    (hx : x ∈ reachSet G u) (hxy : (x, y) ∈ G.edges) : y ∈ reachSet G u := by
  have hT : ∀ e ∈ G.edges, e.2 ∈ u :: G.edges.map Prod.snd := by
    intro e he
    exact List.mem_cons_of_mem _ (List.mem_map.mpr ⟨e, he, rfl⟩)
  have hcl := closureAux_closed (G := G) (U := u :: G.edges.map Prod.snd) hT
    (G.edges.length + 1) [u]
    (by intro z hz; simp at hz; simp [hz])
    (by
      have hpos : 0 < memCount (u :: G.edges.map Prod.snd) [u] := by
        apply List.countP_pos_iff.mpr
        exact ⟨u, List.mem_cons_self u _, by simp⟩
      simp only [List.length_cons, List.length_map]
      omega)
  exact hcl y (mem_stepSet.mpr (Or.inr ⟨(x, y), hxy, hx, rfl⟩))

/-- The computable reachability test agrees with the reflexive-transitive
closure of the edge relation. -/
theorem reachable_iff {G : DiGraph α} {u v : α} :
    reachable G u v = true ↔ Reaches G u v := by
  constructor
  · intro h
    have hv : v ∈ reachSet G u := by simpa [reachable] using h
    obtain ⟨w, hw, hr⟩ := closureAux_sound _ hv
    rwa [List.mem_singleton.mp hw] at hr
  · intro h
    have : v ∈ reachSet G u := by
      induction h with
      | refl => exact reachSet_head u
      | tail _ hbc ih => exact reachSet_closed ih hbc
    simpa [reachable]

/-- `nx.descendants(G, v)`: all nodes reachable from `v`, excluding `v`
itself (breadth-first search never rediscovers its start). -/
def descendants (G : DiGraph α) (v : α) : List α :=
  G.nodes.filter (fun u => decide (u ≠ v) && reachable G v u)

/-- `nx.ancestors(G, v)`: all nodes that reach `v`, excluding `v` itself. -/
def ancestors (G : DiGraph α) (v : α) : List α :=
  G.nodes.filter (fun u => decide (u ≠ v) && reachable G u v)

theorem mem_descendants {G : DiGraph α} {u v : α} :
    u ∈ descendants G v ↔ u ∈ G.nodes ∧ u ≠ v ∧ Reaches G v u := by
  simp [descendants, reachable_iff]

theorem mem_ancestors {G : DiGraph α} {u v : α} :
    u ∈ ancestors G v ↔ u ∈ G.nodes ∧ u ≠ v ∧ Reaches G u v := by
  simp [ancestors, reachable_iff]

/-- `nx.is_directed_acyclic_graph`: the graph has no directed cycle.  A
cycle exists exactly when some edge is closed by a return path, which is what
is checked here. -/
def is_directed_acyclic_graph (G : DiGraph α) : Bool :=
  G.edges.all (fun e => ! reachable G e.2 e.1)

theorem isDAG_iff {G : DiGraph α} :
    is_directed_acyclic_graph G = true ↔
      ∀ v, ¬ Relation.TransGen (E G) v v := by
  constructor
  · intro h v hv
    obtain ⟨b, hvb, hbv⟩ := Relation.TransGen.head'_iff.mp hv
    have := List.all_eq_true.mp h (v, b) hvb
    simp only [Bool.not_eq_true'] at this
    exact absurd (reachable_iff.mpr hbv) (by simp [this])
  · intro h
    apply List.all_eq_true.mpr
    intro e he
    simp only [Bool.not_eq_true']
    by_contra hne
    have hr : reachable G e.2 e.1 = true := by
      cases hb : reachable G e.2 e.1
      · exact absurd hb hne
      · rfl
    exact h e.1 (Relation.TransGen.head' he (reachable_iff.mp hr))

/-- `_ensure_dag` of `dag.py`: raise `ValueError` when the graph is not a
DAG; modelled as `Except.error`. -/
def ensure_dag (G : DiGraph α) : Except String Unit :=
  if is_directed_acyclic_graph G then Except.ok ()
  else Except.error "Graph is not a DAG (contains cycles)"

/-- Strong connectivity of two nodes: each reaches the other. -/
def sameSCC (G : DiGraph α) (u v : α) : Bool :=
  reachable G u v && reachable G v u

theorem sameSCC_iff {G : DiGraph α} {u v : α} :
    sameSCC G u v = true ↔ Reaches G u v ∧ Reaches G v u := by
  simp [sameSCC, reachable_iff]

theorem sameSCC_refl {G : DiGraph α} (v : α) : sameSCC G v v = true := by
  simp [sameSCC_iff]
  exact Relation.ReflTransGen.refl

theorem sameSCC_symm {G : DiGraph α} {u v : α} (h : sameSCC G u v = true) :
    sameSCC G v u = true := by
  rw [sameSCC_iff] at *
  exact ⟨h.2, h.1⟩

theorem sameSCC_trans {G : DiGraph α} {u v w : α}
    (h1 : sameSCC G u v = true) (h2 : sameSCC G v w = true) :
    sameSCC G u w = true := by
  rw [sameSCC_iff] at *
  exact ⟨h1.1.trans h2.1, h2.2.trans h1.2⟩

/-- The strongly connected component of `v`, as a sublist of the nodes. -/
def sccOf (G : DiGraph α) (v : α) : List α :=
  G.nodes.filter (fun u => sameSCC G v u)

theorem mem_sccOf {G : DiGraph α} {u v : α} :
    u ∈ sccOf G v ↔ u ∈ G.nodes ∧ sameSCC G v u = true := by
  simp [sccOf]

/-- `v` is the canonical representative of its SCC: the first node in node
order that is strongly connected to `v` is `v` itself.  This fixes the
enumeration order of `nx.strongly_connected_components` deterministically. -/
def isFirstRep (G : DiGraph α) (v : α) : Bool :=
  G.nodes.find? (fun u => sameSCC G u v) == some v

/-- The SCC partition of the node set, one component per representative, in
node order; models `list(nx.strongly_connected_components(G))`. -/
def sccs (G : DiGraph α) : List (List α) :=
  (G.nodes.filter (fun v => isFirstRep G v)).map (sccOf G)

/-- `node_to_scc` of `_analyze_with_condensation`: index of the SCC
containing `v` in the SCC enumeration. -/
def sccIdx (G : DiGraph α) (v : α) : Nat :=
  (sccs G).findIdx (fun c => decide (v ∈ c))

theorem find?_congr {p q : α → Bool} :
    ∀ {l : List α}, (∀ x ∈ l, p x = q x) → l.find? p = l.find? q := by
  intro l
  induction l with
  | nil => intro _; rfl
  | cons a l ih =>
    intro h
    rw [List.find?_cons, List.find?_cons, h a (List.mem_cons_self a l)]
    cases q a
    · exact ih fun x hx => h x (List.mem_cons_of_mem a hx)
    · rfl

theorem findIdx_congr {p q : α → Bool} :
    ∀ {l : List α}, (∀ x ∈ l, p x = q x) → l.findIdx p = l.findIdx q := by
  intro l
  induction l with
  | nil => intro _; rfl
  | cons a l ih =>
    intro h
    rw [List.findIdx_cons, List.findIdx_cons, h a (List.mem_cons_self a l)]
    cases q a
    · simp only [cond_false]
      rw [ih fun x hx => h x (List.mem_cons_of_mem a hx)]
    · rfl

theorem sameSCC_congr_right {G : DiGraph α} {r v : α}
    (h : sameSCC G r v = true) (x : α) : sameSCC G x r = sameSCC G x v := by
  cases hxv : sameSCC G x v
  · cases hxr : sameSCC G x r
    · rfl
    · exact absurd (sameSCC_trans hxr h) (by simp [hxv])
  · exact sameSCC_trans hxv (sameSCC_symm h)

theorem exists_first_rep {G : DiGraph α} {v : α} (hv : v ∈ G.nodes) :
    ∃ r, G.nodes.find? (fun u => sameSCC G u v) = some r ∧
      sameSCC G r v = true ∧ isFirstRep G r = true ∧ r ∈ G.nodes := by
  cases hf : G.nodes.find? (fun u => sameSCC G u v) with
  | none =>
    exact absurd (sameSCC_refl v)
      (by simpa using List.find?_eq_none.mp hf v hv)
  | some r =>
    have hmem := List.mem_of_find?_eq_some hf
    have hscc := List.find?_some hf
    refine ⟨r, rfl, hscc, ?_, hmem⟩
    unfold isFirstRep
    have hcongr : G.nodes.find? (fun u => sameSCC G u r) =
        G.nodes.find? (fun u => sameSCC G u v) :=
      find?_congr fun x _ => sameSCC_congr_right hscc x
    rw [hcongr, hf]
    exact beq_self_eq_true (some r)

theorem rep_unique {G : DiGraph α} {r1 r2 : α}
    (h1 : isFirstRep G r1 = true) (h2 : isFirstRep G r2 = true)
    (h : sameSCC G r1 r2 = true) : r1 = r2 := by
  unfold isFirstRep at h1 h2
  have e1 := eq_of_beq h1
  have e2 := eq_of_beq h2
  have hcongr : G.nodes.find? (fun u => sameSCC G u r1) =
      G.nodes.find? (fun u => sameSCC G u r2) :=
    find?_congr fun x _ => sameSCC_congr_right h x
  rw [e2, e1] at hcongr
  exact Option.some_inj.mp hcongr

theorem sccs_entry {G : DiGraph α} {i : Nat} (h : i < (sccs G).length) :
    ∃ r, isFirstRep G r = true ∧ r ∈ G.nodes ∧
      (sccs G).get ⟨i, h⟩ = sccOf G r ∧
      (G.nodes.filter (fun v => isFirstRep G v)).get
        ⟨i, by simpa [sccs] using h⟩ = r := by
  have hlen : i < (G.nodes.filter (fun v => isFirstRep G v)).length := by
    simpa [sccs] using h
  set r := (G.nodes.filter (fun v => isFirstRep G v)).get ⟨i, hlen⟩ with hr
  have hrmem : r ∈ G.nodes.filter (fun v => isFirstRep G v) :=
    List.get_mem _ _ _
  refine ⟨r, ?_, ?_, ?_, rfl⟩
  · exact (List.mem_filter.mp hrmem).2
  · exact (List.mem_filter.mp hrmem).1
  · simp only [sccs, List.get_eq_getElem, List.getElem_map]
    rfl

theorem sccIdx_lt {G : DiGraph α} {v : α} (hv : v ∈ G.nodes) :
    sccIdx G v < (sccs G).length := by
  obtain ⟨r, _, hscc, hrep, hrmem⟩ := exists_first_rep hv
  apply List.findIdx_lt_length_of_exists
  refine ⟨sccOf G r, ?_, ?_⟩
  · exact List.mem_map.mpr ⟨r, List.mem_filter.mpr ⟨hrmem, hrep⟩, rfl⟩
  · simp only [decide_eq_true_eq]
    exact mem_sccOf.mpr ⟨hv, hscc⟩

theorem mem_scc_sccIdx {G : DiGraph α} {v : α} (hv : v ∈ G.nodes) :
    v ∈ (sccs G).get ⟨sccIdx G v, sccIdx_lt hv⟩ := by
  have := @List.findIdx_getElem _ (fun c => decide (v ∈ c))
    (sccs G) (sccIdx_lt hv)
  simpa [List.get_eq_getElem, sccIdx] using this

theorem sccIdx_eq_of_sameSCC {G : DiGraph α} {u v : α}
    (hu : u ∈ G.nodes) (hv : v ∈ G.nodes) (h : sameSCC G u v = true) :
    sccIdx G u = sccIdx G v := by
  apply findIdx_congr
  intro c hc
  obtain ⟨r, hrrep, hrc⟩ := List.mem_map.mp hc
  apply decide_eq_decide.mpr
  rw [← hrc, mem_sccOf, mem_sccOf]
  constructor
  · rintro ⟨_, hru⟩
    exact ⟨hv, sameSCC_trans hru h⟩
  · rintro ⟨_, hrv⟩
    exact ⟨hu, sameSCC_trans hrv (sameSCC_symm h)⟩

theorem sameSCC_of_sccIdx_eq {G : DiGraph α} {u v : α}
    (hu : u ∈ G.nodes) (hv : v ∈ G.nodes) (h : sccIdx G u = sccIdx G v) :
    sameSCC G u v = true := by
  have hu' := mem_scc_sccIdx hu
  have hv' := mem_scc_sccIdx hv
  obtain ⟨r, _, _, hentry, _⟩ := sccs_entry (sccIdx_lt hu)
  rw [hentry] at hu'
  have hv'' : v ∈ sccOf G r := by
    rw [← hentry]
    have : (⟨sccIdx G v, sccIdx_lt hv⟩ : Fin (sccs G).length) =
        ⟨sccIdx G u, sccIdx_lt hu⟩ := by
      apply Fin.ext
      exact h.symm
    rwa [this] at hv'
  exact sameSCC_trans (sameSCC_symm (mem_sccOf.mp hu').2)
    (mem_sccOf.mp hv'').2

theorem sccIdx_of_mem {G : DiGraph α} (hnd : G.nodes.Nodup)
    {i : Nat} {h : i < (sccs G).length} {x : α}
    (hx : x ∈ (sccs G).get ⟨i, h⟩) : x ∈ G.nodes ∧ sccIdx G x = i := by
  obtain ⟨ri, hirep, hinodes, hientry, higet⟩ := sccs_entry h
  rw [hientry] at hx
  obtain ⟨hxnodes, hix⟩ := mem_sccOf.mp hx
  refine ⟨hxnodes, ?_⟩
  have hj : sccIdx G x < (sccs G).length := sccIdx_lt hxnodes
  obtain ⟨rj, hjrep, hjnodes, hjentry, hjget⟩ := sccs_entry hj
  have hx' := mem_scc_sccIdx hxnodes
  rw [hjentry] at hx'
  have hjx := (mem_sccOf.mp hx').2
  have hij : ri = rj := rep_unique hirep hjrep
    (sameSCC_trans hix (sameSCC_symm hjx))
  have hnd' : (G.nodes.filter (fun v => isFirstRep G v)).Nodup :=
    List.Nodup.filter _ hnd
  have : (⟨sccIdx G x, by simpa [sccs] using hj⟩ :
      Fin (G.nodes.filter (fun v => isFirstRep G v)).length) =
      ⟨i, by simpa [sccs] using h⟩ := by
    apply (List.Nodup.get_inj_iff hnd').mp
    rw [hjget, higet, hij]
  exact congrArg Fin.val this

/-- `nx.condensation(G, scc=sccs)`: nodes are the SCC indices
`0 … len(sccs)-1`; for every original edge whose endpoints lie in different
SCCs an edge between the owning SCC indices is added. -/
def condensation (G : DiGraph α) : DiGraph Nat :=
  { nodes := List.range (sccs G).length
  , edges := G.edges.filterMap (fun e =>
      if sccIdx G e.1 = sccIdx G e.2 then none
      else some (sccIdx G e.1, sccIdx G e.2)) }

theorem mem_condensation_edges {G : DiGraph α} {i j : Nat} :
    (i, j) ∈ (condensation G).edges ↔
      ∃ e ∈ G.edges, sccIdx G e.1 = i ∧ sccIdx G e.2 = j ∧ i ≠ j := by
  simp only [condensation, List.mem_filterMap]
  constructor
  · rintro ⟨e, he, hsome⟩
    by_cases heq : sccIdx G e.1 = sccIdx G e.2
    · simp [heq] at hsome
    · simp only [heq, if_false] at hsome
      obtain ⟨h1, h2⟩ := Prod.mk.injEq _ _ _ _ ▸ Option.some_inj.mp hsome
      exact ⟨e, he, h1, h2, by rw [← h1, ← h2]; exact heq⟩
  · rintro ⟨e, he, h1, h2, hne⟩
    refine ⟨e, he, ?_⟩
    have heq : ¬ sccIdx G e.1 = sccIdx G e.2 := by rw [h1, h2]; exact hne
    rw [if_neg heq, h1, h2]

theorem condensation_wf {G : DiGraph α} (hwf : Wf G) :
    Wf (condensation G) := by
  constructor
  · exact List.nodup_range _
  · intro e he
    have he' : (e.1, e.2) ∈ (condensation G).edges := he
    obtain ⟨e', he', h1, h2, _⟩ := mem_condensation_edges.mp he'
    obtain ⟨hu, hv⟩ := hwf.2 e' he'
    constructor
    · simpa [condensation, List.mem_range] using h1 ▸ sccIdx_lt hu
    · simpa [condensation, List.mem_range] using h2 ▸ sccIdx_lt hv

theorem reaches_of_sameSCC {G : DiGraph α} {u v : α}
    (h : sameSCC G u v = true) : Reaches G u v := (sameSCC_iff.mp h).1

/-- Reachability in the condensation reflects into reachability between any
members of the corresponding SCCs in the original graph. -/
theorem cond_reaches_lift {G : DiGraph α} (hwf : Wf G) {i j : Nat}
    (h : Reaches (condensation G) i j) :
    ∀ a b, a ∈ G.nodes → b ∈ G.nodes → sccIdx G a = i → sccIdx G b = j →
      Reaches G a b := by
  induction h using Relation.ReflTransGen.head_induction_on with
  | refl =>
    intro a b ha hb hia hjb
    exact reaches_of_sameSCC
      (sameSCC_of_sccIdx_eq ha hb (by rw [hia, hjb]))
  | head hedge _ ih =>
    intro a b ha hb hia hjb
    rename_i i' k' _
    obtain ⟨e, he, h1, h2, _⟩ := mem_condensation_edges.mp hedge
    obtain ⟨hu, hv⟩ := hwf.2 e he
    have hau : Reaches G a e.1 :=
      reaches_of_sameSCC (sameSCC_of_sccIdx_eq ha hu (by rw [hia, h1]))
    have huv : Reaches G e.1 e.2 := Relation.ReflTransGen.single he
    have hvb : Reaches G e.2 b := ih e.2 b hv hb h2 hjb
    exact (hau.trans huv).trans hvb

/-- The condensation of any graph is acyclic — the load-bearing invariant of
the engine: an edge of the condensation can never be closed by a return
path, since that would merge the two SCCs. -/
theorem condensation_acyclic {G : DiGraph α} (hwf : Wf G) :
    is_directed_acyclic_graph (condensation G) = true := by
  apply List.all_eq_true.mpr
  intro e he
  simp only [Bool.not_eq_true']
  cases hr : reachable (condensation G) e.2 e.1
  · rfl
  · exfalso
    have he' : (e.1, e.2) ∈ (condensation G).edges := he
    obtain ⟨e0, he0, h1, h2, hne⟩ := mem_condensation_edges.mp he'
    obtain ⟨hu, hv⟩ := hwf.2 e0 he0
    have hback : Reaches G e0.2 e0.1 :=
      cond_reaches_lift hwf (reachable_iff.mp hr) e0.2 e0.1 hv hu h2 h1
    have hfwd : Reaches G e0.1 e0.2 := Relation.ReflTransGen.single he0
    have : sccIdx G e0.1 = sccIdx G e0.2 :=
      sccIdx_eq_of_sameSCC hu hv (sameSCC_iff.mpr ⟨hfwd, hback⟩)
    rw [h1, h2] at this
    exact hne this

/-- In a finite node set in which every node has a predecessor inside the
set, some node lies on a cycle (pigeonhole along iterated predecessors). -/
theorem cycle_of_all_have_pred {G : DiGraph α} {S : List α} (hne : S ≠ [])
    (hpred : ∀ v ∈ S, ∃ u ∈ S, (u, v) ∈ G.edges) :
    ∃ v, Relation.TransGen (E G) v v := by
  classical
  set f : α → α :=
    fun v => (S.find? (fun u => decide ((u, v) ∈ G.edges))).getD v with hf
  have hfS : ∀ v ∈ S, f v ∈ S ∧ (f v, v) ∈ G.edges := by
    intro v hv
    cases hfind : S.find? (fun u => decide ((u, v) ∈ G.edges)) with
    | none =>
      exfalso
      obtain ⟨u, hu, hedge⟩ := hpred v hv
      have := List.find?_eq_none.mp hfind u hu
      simp [hedge] at this
    | some u =>
      have h1 := List.mem_of_find?_eq_some hfind
      have h2 := List.find?_some hfind
      simp only [hf, hfind, Option.getD_some]
      exact ⟨h1, by simpa using h2⟩
  set g : Nat → α := fun n => f^[n] (S.head hne) with hg
  have hgS : ∀ n, g n ∈ S := by
    intro n
    induction n with
    | zero => exact List.head_mem hne
    | succ n ih =>
      have : g (n + 1) = f (g n) := Function.iterate_succ_apply' f n _
      rw [this]
      exact (hfS _ ih).1
  have hchain : ∀ n, E G (g (n + 1)) (g n) := by
    intro n
    have : g (n + 1) = f (g n) := Function.iterate_succ_apply' f n _
    rw [this]
    exact (hfS _ (hgS n)).2
  have htg : ∀ n d, Relation.TransGen (E G) (g (n + d + 1)) (g n) := by
    intro n d
    induction d with
    | zero => exact Relation.TransGen.single (hchain n)
    | succ d ih =>
      exact Relation.TransGen.head (hchain (n + d + 1)) ih
  obtain ⟨i, hi, j, hj, hij, heq⟩ :=
    Finset.exists_ne_map_eq_of_card_lt_of_maps_to
      (s := Finset.range (S.length + 1)) (t := S.toFinset)
      (by
        have := List.toFinset_card_le S
        simp only [Finset.card_range]
        omega)
      (fun a _ => List.mem_toFinset.mpr (hgS a))
  rcases Nat.lt_or_ge i j with hlt | hge
  · refine ⟨g j, ?_⟩
    have : j = i + (j - i - 1) + 1 := by omega
    have ht := htg i (j - i - 1)
    rw [← this, heq] at ht
    exact ht
  · have hlt : j < i := by omega
    refine ⟨g i, ?_⟩
    have : i = j + (i - j - 1) + 1 := by omega
    have ht := htg j (i - j - 1)
    rw [← this, ← heq] at ht
    exact ht

/-- Kahn-style topological sorting with explicit fuel: repeatedly emit a
remaining node having no predecessor among the remaining nodes; models
`nx.topological_sort` (reachable only after `_ensure_dag` has passed). -/
def topoAux (G : DiGraph α) : Nat → List α → List α
  | 0, _ => []
  | n + 1, rem =>
    match rem.find? (fun v => rem.all (fun u => ! decide ((u, v) ∈ G.edges))) with
    | none => []
    | some v => v :: topoAux G n (rem.erase v)

/-- `nx.topological_sort(G)`. -/
def topological_sort (G : DiGraph α) : List α :=
  topoAux G G.nodes.length G.nodes

theorem topo_find_some {G : DiGraph α}
    (hdag : is_directed_acyclic_graph G = true) {rem : List α}
    (hne : rem ≠ []) :
    ∃ v, rem.find?
      (fun v => rem.all (fun u => ! decide ((u, v) ∈ G.edges))) = some v := by
  cases hfind : rem.find?
      (fun v => rem.all (fun u => ! decide ((u, v) ∈ G.edges))) with
  | some v => exact ⟨v, rfl⟩
  | none =>
    exfalso
    have hall : ∀ v ∈ rem, ∃ u ∈ rem, (u, v) ∈ G.edges := by
      intro v hv
      have hnone := List.find?_eq_none.mp hfind v hv
      by_contra hn
      push_neg at hn
      apply hnone
      apply List.all_eq_true.mpr
      intro u hu
      simp only [Bool.not_eq_true', decide_eq_false_iff_not]
      exact hn u hu
    obtain ⟨v, hv⟩ := cycle_of_all_have_pred hne hall
    exact isDAG_iff.mp hdag v hv

theorem topoAux_perm {G : DiGraph α}
    (hdag : is_directed_acyclic_graph G = true) :
    ∀ (n : Nat) (rem : List α), rem.Nodup → rem.length = n →
      (topoAux G n rem).Perm rem := by
  intro n
  induction n with
  | zero =>
    intro rem _ hlen
    rw [List.length_eq_zero.mp hlen]
    exact List.Perm.refl _
  | succ n ih =>
    intro rem hnd hlen
    have hne : rem ≠ [] := by
      intro h
      rw [h] at hlen
      simp at hlen
    obtain ⟨v, hfind⟩ := topo_find_some hdag hne
    have hv : v ∈ rem := List.mem_of_find?_eq_some hfind
    have hstep : topoAux G (n + 1) rem = v :: topoAux G n (rem.erase v) := by
      simp only [topoAux]
      rw [hfind]
    rw [hstep]
    have hperm := ih (rem.erase v) (List.Nodup.erase v hnd)
      (by rw [List.length_erase_of_mem hv]; omega)
    exact (hperm.cons v).trans (List.perm_cons_erase hv).symm

/-- `GoodOrder G l` holds when no element of `l` has a predecessor at its own
position or later: the defining property of a topological order. -/
def GoodOrder (G : DiGraph α) : List α → Prop
  | [] => True
  | v :: rest => (∀ u ∈ v :: rest, (u, v) ∉ G.edges) ∧ GoodOrder G rest

theorem topoAux_good {G : DiGraph α}
    (hdag : is_directed_acyclic_graph G = true) :
    ∀ (n : Nat) (rem : List α), rem.Nodup → rem.length = n →
      GoodOrder G (topoAux G n rem) := by
  intro n
  induction n with
  | zero => intro rem _ _; trivial
  | succ n ih =>
    intro rem hnd hlen
    have hne : rem ≠ [] := by
      intro h
      rw [h] at hlen
      simp at hlen
    obtain ⟨v, hfind⟩ := topo_find_some hdag hne
    have hv : v ∈ rem := List.mem_of_find?_eq_some hfind
    have hcond := List.find?_some hfind
    have hnopred : ∀ u ∈ rem, (u, v) ∉ G.edges := by
      intro u hu
      have := List.all_eq_true.mp hcond u hu
      simpa using this
    have hstep : topoAux G (n + 1) rem = v :: topoAux G n (rem.erase v) := by
      simp only [topoAux]
      rw [hfind]
    rw [hstep]
    refine ⟨?_, ih (rem.erase v) (List.Nodup.erase v hnd)
      (by rw [List.length_erase_of_mem hv]; omega)⟩
    intro u hu
    rcases List.mem_cons.mp hu with rfl | hu'
    · exact hnopred u hv
    · have hperm := topoAux_perm hdag n (rem.erase v)
        (List.Nodup.erase v hnd)
        (by rw [List.length_erase_of_mem hv]; omega)
      have : u ∈ rem.erase v := hperm.mem_iff.mp hu'
      exact hnopred u (List.erase_subset v rem this)

theorem goodOrder_suffix {G : DiGraph α} :
    ∀ {l1 l2 : List α}, GoodOrder G (l1 ++ l2) → GoodOrder G l2 := by
  intro l1
  induction l1 with
  | nil => intro l2 h; exact h
  | cons a l1 ih => intro l2 h; exact ih h.2

theorem topological_sort_perm {G : DiGraph α} (hwf : Wf G)
    (hdag : is_directed_acyclic_graph G = true) :
    (topological_sort G).Perm G.nodes :=
  topoAux_perm hdag _ _ hwf.1 rfl

theorem topological_sort_good {G : DiGraph α} (hwf : Wf G)
    (hdag : is_directed_acyclic_graph G = true) :
    GoodOrder G (topological_sort G) :=
  topoAux_good hdag _ _ hwf.1 rfl

/-- Association-list lookup with default; models Python `dict.get(k, d)`
(and plain `dict[k]` where the key is known to be present). -/
def lookupD {β : Type} (l : List (α × β)) (k : α) (d : β) : β :=
  match l.find? (fun p => decide (p.1 = k)) with
  | some p => p.2
  | none => d

theorem lookupD_append_left {β : Type} {l1 l2 : List (α × β)} {k : α} {d : β}
    (h : k ∈ l1.map Prod.fst) :
    lookupD (l1 ++ l2) k d = lookupD l1 k d := by
  obtain ⟨p, hp, hpk⟩ := List.mem_map.mp h
  unfold lookupD
  rw [List.find?_append]
  cases hf : l1.find? (fun p => decide (p.1 = k)) with
  | some q => rfl
  | none =>
    exact absurd (by simpa using hpk) (by simpa using List.find?_eq_none.mp hf p hp)

theorem lookupD_append_right {β : Type} {l1 l2 : List (α × β)} {k : α} {d : β}
    (h : k ∉ l1.map Prod.fst) :
    lookupD (l1 ++ l2) k d = lookupD l2 k d := by
  unfold lookupD
  rw [List.find?_append]
  have hf : l1.find? (fun p => decide (p.1 = k)) = none := by
    apply List.find?_eq_none.mpr
    intro p hp
    simp only [decide_eq_true_eq]
    intro hpk
    exact h (List.mem_map.mpr ⟨p, hp, hpk⟩)
  rw [hf]
  rfl

theorem lookupD_cons_self {β : Type} {l : List (α × β)} {k : α} {x d : β} :
    lookupD ((k, x) :: l) k d = x := by
  unfold lookupD
  simp

theorem lookupD_values {β : Type} {l : List (α × β)} {k : α} {d : β} :
    lookupD l k d = d ∨ ∃ p ∈ l, p.1 = k ∧ p.2 = lookupD l k d := by
  unfold lookupD
  cases hf : l.find? (fun p => decide (p.1 = k)) with
  | none => exact Or.inl rfl
  | some p =>
    refine Or.inr ⟨p, List.mem_of_find?_eq_some hf, ?_, rfl⟩
    simpa using List.find?_some hf

theorem foldl_max_le {l : List Nat} {a B : Nat} (ha : a ≤ B)
    (h : ∀ x ∈ l, x ≤ B) : l.foldl Nat.max a ≤ B := by
  induction l generalizing a with
  | nil => exact ha
  | cons x xs ih =>
    exact ih (Nat.max_le.mpr ⟨ha, h x (List.mem_cons_self x xs)⟩)
      fun y hy => h y (List.mem_cons_of_mem x hy)

theorem init_le_foldl_max {l : List Nat} {a : Nat} : a ≤ l.foldl Nat.max a := by
  induction l generalizing a with
  | nil => exact Nat.le_refl a
  | cons x xs ih => exact Nat.le_trans (Nat.le_max_left a x) ih

theorem mem_le_foldl_max {l : List Nat} {a x : Nat} (hx : x ∈ l) :
    x ≤ l.foldl Nat.max a := by
  induction l generalizing a with
  | nil => cases hx
  | cons y ys ih =>
    rcases List.mem_cons.mp hx with rfl | hx'
    · exact Nat.le_trans (Nat.le_max_right a x) init_le_foldl_max
    · exact ih hx'

theorem foldl_max_mem {l : List Nat} {a : Nat} :
    l.foldl Nat.max a = a ∨ l.foldl Nat.max a ∈ l := by
  induction l generalizing a with
  | nil => exact Or.inl rfl
  | cons x xs ih =>
    rcases @ih (Nat.max a x) with h | h
    · have hfold : (x :: xs).foldl Nat.max a = Nat.max a x := by
        rw [List.foldl_cons]
        exact h
      rcases Nat.le_total x a with hxa | hax
      · exact Or.inl (by rw [hfold]; exact Nat.max_eq_left hxa)
      · refine Or.inr (List.mem_cons.mpr (Or.inl ?_))
        rw [hfold]
        exact Nat.max_eq_right hax
    · exact Or.inr (List.mem_cons_of_mem x h)

theorem foldl_max_zero_mem {l : List Nat} (h : l ≠ []) :
    l.foldl Nat.max 0 ∈ l := by
  cases l with
  | nil => exact absurd rfl h
  | cons x xs =>
    have hzx : Nat.max 0 x = x := Nat.max_eq_right (Nat.zero_le x)
    have : (x :: xs).foldl Nat.max 0 = xs.foldl Nat.max x := by
      rw [List.foldl_cons, hzx]
    rw [this]
    rcases foldl_max_mem (l := xs) (a := x) with h' | h'
    · exact List.mem_cons.mpr (Or.inl h')
    · exact List.mem_cons_of_mem x h'

/-- One step of the dynamic program of `compute_dependency_depth`:
`depths[node] = 0` for a node with no predecessors, else
`1 + max(depths[pred] for pred in predecessors)`, recorded in insertion
order. -/
def depthStep (G : DiGraph α) (acc : List (α × Nat)) (v : α) : List (α × Nat) :=
  let preds := predecessors G v
  if preds.isEmpty then acc ++ [(v, 0)]
  else acc ++ [(v, 1 + (preds.map (fun u => lookupD acc u 0)).foldl Nat.max 0)]

/-- The depth dictionary built by one pass over the topological order. -/
def depth_dict (G : DiGraph α) : List (α × Nat) :=
  (topological_sort G).foldl (depthStep G) []

/-- `compute_dependency_depth` of `dag.py`: `{}` for the empty graph,
`ValueError` on a cyclic graph, else the dynamic program over a topological
order. -/
def compute_dependency_depth (G : DiGraph α) :
    Except String (List (α × Nat)) :=
  if G.nodes.length = 0 then Except.ok []
  else match ensure_dag G with
  | Except.error e => Except.error e
  | Except.ok _ => Except.ok (depth_dict G)

/-- `compute_topological_layers` of `dag.py`: layers coincide with depths. -/
def compute_topological_layers (G : DiGraph α) :
    Except String (List (α × Nat)) :=
  compute_dependency_depth G

theorem depthStep_keys {G : DiGraph α} (acc : List (α × Nat)) (v : α) :
    (depthStep G acc v).map Prod.fst = acc.map Prod.fst ++ [v] := by
  unfold depthStep
  by_cases h : (predecessors G v).isEmpty
  · simp [h]
  · simp [h]

theorem foldl_depthStep_keys {G : DiGraph α} :
    ∀ (l : List α) (acc : List (α × Nat)),
      ((l.foldl (depthStep G) acc).map Prod.fst) = acc.map Prod.fst ++ l := by
  intro l
  induction l with
  | nil => intro acc; simp
  | cons v l ih =>
    intro acc
    rw [List.foldl_cons, ih, depthStep_keys]
    simp

theorem foldl_depthStep_prefix {G : DiGraph α} :
    ∀ (l : List α) (acc : List (α × Nat)),
      ∃ rest, l.foldl (depthStep G) acc = acc ++ rest := by
  intro l
  induction l with
  | nil => intro acc; exact ⟨[], by simp⟩
  | cons v l ih =>
    intro acc
    obtain ⟨rest, hrest⟩ := ih (depthStep G acc v)
    unfold depthStep at hrest
    by_cases h : (predecessors G v).isEmpty
    · rw [List.foldl_cons]
      exact ⟨[(v, 0)] ++ rest, by
        unfold depthStep
        rw [if_pos h] at hrest ⊢
        rw [hrest, List.append_assoc]⟩
    · rw [List.foldl_cons]
      refine ⟨[(v, 1 + ((predecessors G v).map
        (fun u => lookupD acc u 0)).foldl Nat.max 0)] ++ rest, ?_⟩
      unfold depthStep
      rw [if_neg h] at hrest ⊢
      rw [hrest, List.append_assoc]

theorem depth_dict_lookup_split {G : DiGraph α} (hwf : Wf G)
    (hdag : is_directed_acyclic_graph G = true) {l1 l2 : List α} {v : α}
    (hL : topological_sort G = l1 ++ v :: l2) :
    lookupD (depth_dict G) v 0 =
      if (predecessors G v).isEmpty then 0
      else 1 + ((predecessors G v).map
        (fun u => lookupD (depth_dict G) u 0)).foldl Nat.max 0 := by
  have hnd : (topological_sort G).Nodup :=
    ((topological_sort_perm hwf hdag).nodup_iff).mpr hwf.1
  rw [hL] at hnd
  obtain ⟨hnd1, hnd2, hdisj⟩ := List.nodup_append.mp hnd
  have hvl1 : v ∉ l1 := fun hv => hdisj hv (List.mem_cons_self v l2)
  set A := l1.foldl (depthStep G) ([] : List (α × Nat)) with hA
  have hkeysA : A.map Prod.fst = l1 := by
    rw [hA, foldl_depthStep_keys]
    simp
  have hD : depth_dict G = l2.foldl (depthStep G) (depthStep G A v) := by
    unfold depth_dict
    rw [hL, List.foldl_append, List.foldl_cons]
  obtain ⟨rest, hrest⟩ := foldl_depthStep_prefix (G := G) l2 (depthStep G A v)
  set dv : Nat := if (predecessors G v).isEmpty then 0
    else 1 + ((predecessors G v).map
      (fun u => lookupD A u 0)).foldl Nat.max 0 with hdv
  have hstep : depthStep G A v = A ++ [(v, dv)] := by
    unfold depthStep
    by_cases hp : (predecessors G v).isEmpty
    · rw [if_pos hp, hdv, if_pos hp]
    · rw [if_neg hp, hdv, if_neg hp]
  have hDfull : depth_dict G = A ++ ([(v, dv)] ++ rest) := by
    rw [hD, hrest, hstep, List.append_assoc]
  have hlookupv : lookupD (depth_dict G) v 0 = dv := by
    rw [hDfull, lookupD_append_right (by rw [hkeysA]; exact hvl1),
      lookupD_append_left (by simp)]
    exact lookupD_cons_self
  have hlookupu : ∀ u ∈ predecessors G v,
      lookupD (depth_dict G) u 0 = lookupD A u 0 := by
    intro u hu
    obtain ⟨hunodes, huedge⟩ := mem_predecessors.mp hu
    have hgood : GoodOrder G (l1 ++ v :: l2) := by
      rw [← hL]
      exact topological_sort_good hwf hdag
    have hnopred := (goodOrder_suffix hgood).1
    have hunotl2 : u ∉ v :: l2 := fun hmem => hnopred u hmem huedge
    have huL : u ∈ l1 ++ v :: l2 := by
      rw [← hL]
      exact (topological_sort_perm hwf hdag).mem_iff.mpr hunodes
    have hul1 : u ∈ l1 := by
      rcases List.mem_append.mp huL with h | h
      · exact h
      · exact absurd h hunotl2
    rw [hDfull, lookupD_append_left (by rw [hkeysA]; exact hul1)]
  rw [hlookupv, hdv]
  by_cases hp : (predecessors G v).isEmpty
  · rw [if_pos hp, if_pos hp]
  · rw [if_neg hp, if_neg hp]
    have : (predecessors G v).map (fun u => lookupD (depth_dict G) u 0) =
        (predecessors G v).map (fun u => lookupD A u 0) :=
      List.map_congr_left hlookupu
    rw [this]

theorem depth_dict_keys {G : DiGraph α} :
    (depth_dict G).map Prod.fst = topological_sort G := by
  unfold depth_dict
  rw [foldl_depthStep_keys]
  simp

/-- The computed depth of every node satisfies the defining recurrence:
`0` for a node with no predecessors, `1 + max` over predecessor depths
otherwise. -/
theorem depth_dict_lookup {G : DiGraph α} (hwf : Wf G)
    (hdag : is_directed_acyclic_graph G = true) {v : α} (hv : v ∈ G.nodes) :
    lookupD (depth_dict G) v 0 =
      if (predecessors G v).isEmpty then 0
      else 1 + ((predecessors G v).map
        (fun u => lookupD (depth_dict G) u 0)).foldl Nat.max 0 := by
  have hvL : v ∈ topological_sort G :=
    (topological_sort_perm hwf hdag).mem_iff.mpr hv
  obtain ⟨l1, l2, hL⟩ := List.append_of_mem hvL
  exact depth_dict_lookup_split hwf hdag hL

/-- Depth strictly increases along every edge: `depth(v) ≥ 1 + depth(u)`
for `(u, v)` an edge. -/
theorem depth_mono_edge {G : DiGraph α} (hwf : Wf G)
    (hdag : is_directed_acyclic_graph G = true) {u v : α}
    (he : (u, v) ∈ G.edges) :
    1 + lookupD (depth_dict G) u 0 ≤ lookupD (depth_dict G) v 0 := by
  obtain ⟨hu, hv⟩ := hwf.2 (u, v) he
  dsimp only at hu hv
  have hupred : u ∈ predecessors G v := mem_predecessors.mpr ⟨hu, he⟩
  have hne : ¬ (predecessors G v).isEmpty := by
    intro h
    rw [List.isEmpty_iff] at h
    rw [h] at hupred
    cases hupred
  rw [depth_dict_lookup hwf hdag hv, if_neg hne]
  have : lookupD (depth_dict G) u 0 ≤ ((predecessors G v).map
      (fun w => lookupD (depth_dict G) w 0)).foldl Nat.max 0 :=
    mem_le_foldl_max (List.mem_map.mpr ⟨u, hupred, rfl⟩)
  omega

/-- Depth strictly increases along any non-trivial path. -/
theorem depth_mono_transGen {G : DiGraph α} (hwf : Wf G)
    (hdag : is_directed_acyclic_graph G = true) {u v : α}
    (h : Relation.TransGen (E G) u v) :
    lookupD (depth_dict G) u 0 < lookupD (depth_dict G) v 0 := by
  induction h with
  | single he => have := depth_mono_edge hwf hdag he; omega
  | tail _ he ih =>
    have := depth_mono_edge hwf hdag he
    omega

theorem depthStep_bound {G : DiGraph α} {acc : List (α × Nat)} {v : α}
    (h : ∀ p ∈ acc, p.2 ≤ acc.length) :
    ∀ p ∈ depthStep G acc v, p.2 ≤ (depthStep G acc v).length := by
  have hlen : (depthStep G acc v).length = acc.length + 1 := by
    have := depthStep_keys (G := G) acc v
    have h1 : ((depthStep G acc v).map Prod.fst).length =
        (acc.map Prod.fst ++ [v]).length := by rw [this]
    simpa using h1
  intro p hp
  rw [hlen]
  unfold depthStep at hp
  by_cases hpre : (predecessors G v).isEmpty
  · rw [if_pos hpre] at hp
    rcases List.mem_append.mp hp with h' | h'
    · exact Nat.le_succ_of_le (h p h')
    · simp only [List.mem_singleton] at h'
      rw [h']
      exact Nat.zero_le _
  · rw [if_neg hpre] at hp
    rcases List.mem_append.mp hp with h' | h'
    · exact Nat.le_succ_of_le (h p h')
    · simp only [List.mem_singleton] at h'
      rw [h']
      simp only
      have hfold : ((predecessors G v).map
          (fun u => lookupD acc u 0)).foldl Nat.max 0 ≤ acc.length := by
        apply foldl_max_le (Nat.zero_le _)
        intro x hx
        obtain ⟨u, _, hux⟩ := List.mem_map.mp hx
        rcases lookupD_values (l := acc) (k := u) (d := 0) with hv | ⟨q, hq, _, hqv⟩
        · rw [← hux, hv]
          exact Nat.zero_le _
        · rw [← hux, ← hqv]
          exact h q hq
      omega

theorem foldl_depthStep_bound {G : DiGraph α} :
    ∀ (l : List α) (acc : List (α × Nat)),
      (∀ p ∈ acc, p.2 ≤ acc.length) →
      ∀ p ∈ l.foldl (depthStep G) acc, p.2 ≤ (l.foldl (depthStep G) acc).length := by
  intro l
  induction l with
  | nil => intro acc h; exact h
  | cons v l ih =>
    intro acc h
    rw [List.foldl_cons]
    exact ih (depthStep G acc v) (depthStep_bound h)

theorem topoAux_length_le {G : DiGraph α} :
    ∀ (n : Nat) (rem : List α), (topoAux G n rem).length ≤ n := by
  intro n
  induction n with
  | zero => intro rem; exact Nat.le_refl 0
  | succ n ih =>
    intro rem
    unfold topoAux
    cases rem.find? (fun v => rem.all (fun u => ! decide ((u, v) ∈ G.edges))) with
    | none => exact Nat.zero_le _
    | some v => simpa using Nat.succ_le_succ (ih (rem.erase v))

/-- Every computed depth is at most the number of nodes. -/
theorem depth_dict_value_le {G : DiGraph α} :
    ∀ p ∈ depth_dict G, p.2 ≤ G.nodes.length := by
  intro p hp
  have h1 := foldl_depthStep_bound (G := G) (topological_sort G) []
    (by intro q hq; cases hq) p hp
  have h2 : (depth_dict G).length = (topological_sort G).length := by
    have h0 := depth_dict_keys (G := G)
    have h3 : ((depth_dict G).map Prod.fst).length =
        (topological_sort G).length := by rw [h0]
    simpa using h3
  have h4 : (topological_sort G).length ≤ G.nodes.length :=
    topoAux_length_le G.nodes.length G.nodes
  have h5 : p.2 ≤ (depth_dict G).length := by simpa [depth_dict] using h1
  omega

/-- `find_sources` of `dag.py`: nodes with no incoming edges, sorted for
consistency. -/
def find_sources [LinearOrder α] (G : DiGraph α) : List α :=
  (G.nodes.filter (fun n => decide (in_degree G n = 0))).mergeSort
    (fun a b => decide (a ≤ b))

/-- `find_sinks` of `dag.py`: nodes with no outgoing edges, sorted. -/
def find_sinks [LinearOrder α] (G : DiGraph α) : List α :=
  (G.nodes.filter (fun n => decide (out_degree G n = 0))).mergeSort
    (fun a b => decide (a ≤ b))

/-- `compute_proof_width` of `dag.py`: the in-degree of every node. -/
def compute_proof_width (G : DiGraph α) : List (α × Nat) :=
  G.nodes.map (fun v => (v, in_degree G v))

/-- `compute_bottleneck_scores` of `dag.py`; the Python float ratio
`descendants / ancestors` is modelled exactly over `ℚ`. -/
def compute_bottleneck_scores (G : DiGraph α) :
    Except String (List (α × ℚ)) :=
  if G.nodes.length = 0 then Except.ok []
  else match ensure_dag G with
  | Except.error e => Except.error e
  | Except.ok _ => Except.ok (G.nodes.map (fun v =>
      let nd := (descendants G v).length
      let na := (ancestors G v).length
      (v, if nd = 0 then 0
          else if na = 0 then (nd : ℚ)
          else (nd : ℚ) / (na : ℚ))))

/-- `compute_reachability_count` of `dag.py`: the number of descendants of
every node (the code performs no acyclicity check here). -/
def compute_reachability_count (G : DiGraph α) : List (α × Nat) :=
  G.nodes.map (fun v => (v, (descendants G v).length))

/-- First maximum by first component: Python `max(us, key=first)`, which
keeps the earliest maximal element. -/
def firstMax (p : Nat × α) (l : List (Nat × α)) : Nat × α :=
  l.foldl (fun best q => if best.1 < q.1 then q else best) p

/-- One step of the longest-path dynamic program of `nx.dag_longest_path`
with unit weights: `dist[v] = (0, v)` for a node without predecessors, else
the first maximum of `(dist[u][0] + 1, u)` over the predecessors `u`. -/
def distStep (G : DiGraph α) (acc : List (α × (Nat × α))) (v : α) :
    List (α × (Nat × α)) :=
  match (predecessors G v).map (fun u => ((lookupD acc u (0, u)).1 + 1, u)) with
  | [] => acc ++ [(v, (0, v))]
  | p :: ps => acc ++ [(v, firstMax p ps)]

/-- The distance dictionary of `nx.dag_longest_path`. -/
def dist_dict (G : DiGraph α) : List (α × (Nat × α)) :=
  (topological_sort G).foldl (distStep G) []

/-- Predecessor-pointer path reconstruction of `nx.dag_longest_path` (the
terminating `while u != v` loop, with fuel). -/
def buildPath (dist : List (α × (Nat × α))) : Nat → α → List α
  | 0, v => [v]
  | n + 1, v =>
    if (lookupD dist v (0, v)).2 = v then [v]
    else buildPath dist n (lookupD dist v (0, v)).2 ++ [v]

/-- `nx.dag_longest_path(G)` with unit weights: dynamic program over a
topological order, then pointer reconstruction starting from the first node
of maximal distance. -/
def dag_longest_path (G : DiGraph α) : List α :=
  if G.nodes.isEmpty then []
  else
    match dist_dict G with
    | [] => []
    | p :: ps =>
      let best := ps.foldl (fun b q => if b.2.1 < q.2.1 then q else b) p
      buildPath (p :: ps) G.nodes.length best.1

/-- `find_critical_path` of `dag.py`. -/
def find_critical_path (G : DiGraph α) : Except String (List α) :=
  if G.nodes.length = 0 then Except.ok []
  else match ensure_dag G with
  | Except.error e => Except.error e
  | Except.ok _ => Except.ok (dag_longest_path G)

/-- `compute_graph_depth` of `dag.py`: `max(0, len(path) - 1)`; truncated
subtraction on `Nat` is exactly this clamp. -/
def compute_graph_depth (G : DiGraph α) : Except String Nat :=
  if G.nodes.length = 0 then Except.ok 0
  else match ensure_dag G with
  | Except.error e => Except.error e
  | Except.ok _ => Except.ok ((dag_longest_path G).length - 1)

/-- `G.subgraph(s)` of networkx: the induced subgraph on a node subset, in
the ambient node and edge order. -/
def subgraphOn (G : DiGraph α) (s : List α) : DiGraph α :=
  { nodes := G.nodes.filter (fun v => decide (v ∈ s))
  , edges := G.edges.filter (fun e => decide (e.1 ∈ s) && decide (e.2 ∈ s)) }

/-- `{target} ∪ nx.ancestors(G, target)` as built in
`find_critical_path_to`. -/
def ancClosure (G : DiGraph α) (t : α) : List α := t :: ancestors G t

/-- `find_critical_path_to` of `dag.py`: `ValueError` when the target is
absent from the graph, else the longest path of the subgraph induced by the
target together with its ancestors. -/
def find_critical_path_to (G : DiGraph α) (target : α) :
    Except String (List α) :=
  if target ∉ G.nodes then Except.error "Target node not in graph"
  else match ensure_dag G with
  | Except.error e => Except.error e
  | Except.ok _ =>
    Except.ok (dag_longest_path (subgraphOn G (ancClosure G target)))

/-- The analysis report assembled by `analyze_dag`.  In the pure-DAG branch
the Python dict carries no `has_cycles` / `num_sccs_with_cycles` keys; the
absent (falsy) keys are modelled as `false` / `0`. -/
structure Report (α : Type) where
  is_dag : Bool
  has_cycles : Bool
  num_sccs_with_cycles : Nat
  depths : List (α × Nat)
  layers : List (α × Nat)
  sources : List α
  sinks : List α
  widths : List (α × Nat)
  bottleneck_scores : List (α × ℚ)
  reachability : List (α × Nat)
  critical_path : List α
  graph_depth : Nat
  num_layers : Nat
  num_sources : Nat
  num_sinks : Nat
deriving DecidableEq

/-- `_analyze_pure_dag` of `dag.py`. -/
def analyze_pure_dag [LinearOrder α] (G : DiGraph α) :
    Except String (Report α) :=
  match compute_dependency_depth G with
  | Except.error e => Except.error e
  | Except.ok depths =>
  match compute_topological_layers G with
  | Except.error e => Except.error e
  | Except.ok layers =>
  let sources := find_sources G
  let sinks := find_sinks G
  let widths := compute_proof_width G
  match compute_bottleneck_scores G with
  | Except.error e => Except.error e
  | Except.ok bscores =>
  let reach := compute_reachability_count G
  match find_critical_path G with
  | Except.error e => Except.error e
  | Except.ok cpath =>
  match compute_graph_depth G with
  | Except.error e => Except.error e
  | Except.ok gdepth =>
  Except.ok
    { is_dag := true
      has_cycles := false
      num_sccs_with_cycles := 0
      depths := depths
      layers := layers
      sources := sources
      sinks := sinks
      widths := widths
      bottleneck_scores := bscores
      reachability := reach
      critical_path := cpath
      graph_depth := gdepth
      num_layers := if layers.isEmpty then 0
        else (layers.map Prod.snd).foldl Nat.max 0 + 1
      num_sources := sources.length
      num_sinks := sinks.length }

/-- `_analyze_with_condensation` of `dag.py`: collapse SCCs, analyse the
condensation, and map the results back to the original nodes. -/
def analyze_with_condensation (G : DiGraph α) :
    Except String (Report α) :=
  let C := condensation G
  match compute_dependency_depth C with
  | Except.error e => Except.error e
  | Except.ok c_depths =>
  match compute_topological_layers C with
  | Except.error e => Except.error e
  | Except.ok c_layers =>
  let depths := G.nodes.map (fun v => (v, lookupD c_depths (sccIdx G v) 0))
  let layers := G.nodes.map (fun v => (v, lookupD c_layers (sccIdx G v) 0))
  let maxLayer := (c_layers.map Prod.snd).foldl Nat.max 0
  let sources := G.nodes.filter (fun v =>
    ((predecessors G v).filter
      (fun p => decide (sccIdx G p ≠ sccIdx G v))).isEmpty
    && decide (lookupD c_depths (sccIdx G v) 0 = 0))
  let sinks := G.nodes.filter (fun v =>
    ((successors G v).filter
      (fun s => decide (sccIdx G s ≠ sccIdx G v))).isEmpty
    && decide (lookupD c_layers (sccIdx G v) 0 = maxLayer))
  let widths := G.nodes.map (fun v => (v, in_degree G v))
  match compute_bottleneck_scores C with
  | Except.error e => Except.error e
  | Except.ok c_bottleneck =>
  let c_reachability := compute_reachability_count C
  let bottleneck_scores := G.nodes.map (fun v =>
    (v, lookupD c_bottleneck (sccIdx G v) 0))
  let reachability := G.nodes.map (fun v =>
    (v, lookupD c_reachability (sccIdx G v) 0
      + ((sccs G).getD (sccIdx G v) []).length - 1))
  match find_critical_path C with
  | Except.error e => Except.error e
  | Except.ok c_critical_path =>
  let critical_path := c_critical_path.filterMap
    (fun i => ((sccs G).getD i []).head?)
  let graph_depth := (depths.map Prod.snd).foldl Nat.max 0
  Except.ok
    { is_dag := true
      has_cycles := true
      num_sccs_with_cycles :=
        ((sccs G).filter (fun c => decide (1 < c.length))).length
      depths := depths
      layers := layers
      sources := sources
      sinks := sinks
      widths := widths
      bottleneck_scores := bottleneck_scores
      reachability := reachability
      critical_path := critical_path
      graph_depth := graph_depth
      num_layers := if layers.isEmpty then 0
        else (layers.map Prod.snd).foldl Nat.max 0 + 1
      num_sources := sources.length
      num_sinks := sinks.length }

/-- `analyze_dag` of `dag.py`, the public entry point: analyse directly when
the graph is acyclic, otherwise go through the condensation. -/
def analyze_dag [LinearOrder α] (G : DiGraph α) : Except String (Report α) :=
  if is_directed_acyclic_graph G then analyze_pure_dag G
  else analyze_with_condensation G

/-- Modelled from the spec: the node records fed to
`build_networkx_graph` (class `astrolabe.models.node.Node`, not among the
analysed sources).  Per the spec a node is an opaque string identifier; the
presentation attributes (name, kind, status, …) do not influence the graph
structure and are omitted. -/
structure Node where
  id : String
deriving DecidableEq

/-- Modelled from the spec: the edge records fed to
`build_networkx_graph` (class `astrolabe.models.edge.Edge`): an ordered pair
source → target. -/
structure Edge where
  source : String
  target : String
deriving DecidableEq

/-- Deduplication keeping the first occurrence, as networkx insertion does
(re-adding an existing node or edge is a no-op); `seen` accumulates the
already-emitted elements. -/
def dedupFAux : List α → List α → List α
  | [], _ => []
  | a :: l, seen =>
    if a ∈ seen then dedupFAux l seen else a :: dedupFAux l (a :: seen)

/-- Deduplication keeping the first occurrence. -/
def dedupF (l : List α) : List α := dedupFAux l []

theorem mem_dedupFAux :
    ∀ {l seen : List α} {x : α},
      x ∈ dedupFAux l seen ↔ x ∈ l ∧ x ∉ seen := by
  intro l
  induction l with
  | nil =>
    intro seen x
    unfold dedupFAux
    simp
  | cons a l ih =>
    intro seen x
    unfold dedupFAux
    by_cases ha : a ∈ seen
    · rw [if_pos ha, ih]
      constructor
      · rintro ⟨hx, hxs⟩
        exact ⟨List.mem_cons_of_mem a hx, hxs⟩
      · rintro ⟨hx, hxs⟩
        rcases List.mem_cons.mp hx with rfl | hx'
        · exact absurd ha hxs
        · exact ⟨hx', hxs⟩
    · rw [if_neg ha]
      constructor
      · intro hx
        rcases List.mem_cons.mp hx with rfl | hx'
        · exact ⟨List.mem_cons_self x l, ha⟩
        · obtain ⟨h1, h2⟩ := ih.mp hx'
          exact ⟨List.mem_cons_of_mem a h1,
            fun hs => h2 (List.mem_cons_of_mem a hs)⟩
      · rintro ⟨hx, hxs⟩
        rcases List.mem_cons.mp hx with rfl | hx'
        · exact List.mem_cons_self x _
        · by_cases hxa : x = a
          · rw [hxa]
            exact List.mem_cons_self a _
          · refine List.mem_cons_of_mem a (ih.mpr ⟨hx', ?_⟩)
            intro hs
            rcases List.mem_cons.mp hs with h | h
            · exact hxa h
            · exact hxs h

theorem mem_dedupF : ∀ {l : List α} {x : α}, x ∈ dedupF l ↔ x ∈ l := by
  intro l x
  unfold dedupF
  rw [mem_dedupFAux]
  simp

/-- `build_networkx_graph` of `graph_builder.py` (directed case): all node
ids are added; an edge is added only when both endpoints are existing nodes,
and an edge referencing an unknown node is silently skipped — no exception
is raised anywhere in the function. -/
def build_networkx_graph (nodes : List Node) (edges : List Edge) :
    DiGraph String :=
  let node_ids := nodes.map Node.id
  { nodes := dedupF node_ids
  , edges := dedupF ((edges.filter (fun e =>
      decide (e.source ∈ node_ids) && decide (e.target ∈ node_ids))).map
      (fun e => (e.source, e.target))) }

theorem lookupD_proj {accD : List (α × (Nat × α))} {u : α} :
    lookupD (accD.map (fun p => (p.1, p.2.1))) u 0 = (lookupD accD u (0, u)).1 := by
  induction accD with
  | nil => rfl
  | cons p l ih =>
    by_cases h : p.1 = u
    · unfold lookupD
      rw [List.map_cons, List.find?_cons_of_pos _ (by simpa using h),
        List.find?_cons_of_pos _ (by simpa using h)]
    · unfold lookupD at ih ⊢
      rw [List.map_cons, List.find?_cons_of_neg _ (by simpa using h),
        List.find?_cons_of_neg _ (by simpa using h)]
      exact ih

theorem firstMax_fst {ps : List (Nat × α)} :
    ∀ {p : Nat × α}, (firstMax p ps).1 = (ps.map Prod.fst).foldl Nat.max p.1 := by
  induction ps with
  | nil => intro p; rfl
  | cons q ps ih =>
    intro p
    have hstep : firstMax p (q :: ps) = firstMax (if p.1 < q.1 then q else p) ps := by
      rfl
    rw [hstep, ih, List.map_cons, List.foldl_cons]
    congr 1
    by_cases h : p.1 < q.1
    · rw [if_pos h]
      exact (Nat.max_eq_right (Nat.le_of_lt h)).symm
    · rw [if_neg h]
      exact (Nat.max_eq_left (Nat.le_of_not_lt h)).symm

theorem firstMax_mem {ps : List (Nat × α)} :
    ∀ {p : Nat × α}, firstMax p ps = p ∨ firstMax p ps ∈ ps := by
  induction ps with
  | nil => intro p; exact Or.inl rfl
  | cons q ps ih =>
    intro p
    have hstep : firstMax p (q :: ps) = firstMax (if p.1 < q.1 then q else p) ps := by
      rfl
    by_cases hc : p.1 < q.1
    · rw [hstep, if_pos hc]
      rcases @ih q with h | h
      · exact Or.inr (List.mem_cons.mpr (Or.inl h))
      · exact Or.inr (List.mem_cons_of_mem q h)
    · rw [hstep, if_neg hc]
      rcases @ih p with h | h
      · exact Or.inl h
      · exact Or.inr (List.mem_cons_of_mem q h)

theorem foldl_max_succ {l : List Nat} :
    ∀ {a : Nat}, (l.map (fun x => x + 1)).foldl Nat.max (a + 1) =
      l.foldl Nat.max a + 1 := by
  induction l with
  | nil => intro a; rfl
  | cons x xs ih =>
    intro a
    rw [List.map_cons, List.foldl_cons, List.foldl_cons]
    have : Nat.max (a + 1) (x + 1) = Nat.max a x + 1 := Nat.succ_max_succ a x
    rw [this, ih]

theorem distStep_proj {G : DiGraph α} {accD : List (α × (Nat × α))} {v : α} :
    (distStep G accD v).map (fun p => (p.1, p.2.1)) =
      depthStep G (accD.map (fun p => (p.1, p.2.1))) v := by
  cases hp : predecessors G v with
  | nil =>
    unfold distStep depthStep
    rw [hp]
    simp
  | cons u0 us =>
    unfold distStep depthStep
    rw [hp]
    simp only [List.map_cons, List.isEmpty_cons, if_neg (by simp : ¬False)]
    rw [List.map_append]
    congr 1
    simp only [List.map_cons, List.map_nil]
    congr 2
    rw [firstMax_fst]
    simp only [List.map_map]
    have hcomp : (Prod.fst ∘ fun u => ((lookupD accD u (0, u)).1 + 1, u)) =
        fun u => (lookupD (accD.map (fun p => (p.1, p.2.1))) u 0) + 1 := by
      funext u
      simp [lookupD_proj]
    rw [hcomp]
    have hmap : us.map (fun u =>
        lookupD (accD.map (fun p => (p.1, p.2.1))) u 0 + 1) =
        (us.map (fun u =>
          lookupD (accD.map (fun p => (p.1, p.2.1))) u 0)).map
          (fun x => x + 1) := by
      rw [List.map_map]
      rfl
    rw [lookupD_proj.symm] at *
    rw [hmap, foldl_max_succ]
    have hzero : Nat.max 0 (lookupD (accD.map (fun p => (p.1, p.2.1))) u0 0) =
        lookupD (accD.map (fun p => (p.1, p.2.1))) u0 0 :=
      Nat.max_eq_right (Nat.zero_le _)
    rw [List.foldl_cons, hzero, lookupD_proj]
    omega

theorem foldl_distStep_proj {G : DiGraph α} :
    ∀ (l : List α) (accD : List (α × (Nat × α))),
      (l.foldl (distStep G) accD).map (fun p => (p.1, p.2.1)) =
        l.foldl (depthStep G) (accD.map (fun p => (p.1, p.2.1))) := by
  intro l
  induction l with
  | nil => intro accD; rfl
  | cons v l ih =>
    intro accD
    rw [List.foldl_cons, List.foldl_cons, ih, distStep_proj]

/-- The distance dictionary of `dag_longest_path` projects onto the depth
dictionary of `compute_dependency_depth`: both dynamic programs compute the
same longest-path-from-a-source values. -/
theorem dist_dict_proj {G : DiGraph α} :
    (dist_dict G).map (fun p => (p.1, p.2.1)) = depth_dict G := by
  unfold dist_dict depth_dict
  rw [foldl_distStep_proj]
  rfl

theorem dist_lookup_fst {G : DiGraph α} {v : α} :
    (lookupD (dist_dict G) v (0, v)).1 = lookupD (depth_dict G) v 0 := by
  rw [← dist_dict_proj, lookupD_proj]

theorem distStep_keys {G : DiGraph α} (acc : List (α × (Nat × α))) (v : α) :
    (distStep G acc v).map Prod.fst = acc.map Prod.fst ++ [v] := by
  unfold distStep
  cases (predecessors G v).map (fun u => ((lookupD acc u (0, u)).1 + 1, u)) with
  | nil => simp
  | cons p ps => simp

theorem foldl_distStep_keys {G : DiGraph α} :
    ∀ (l : List α) (acc : List (α × (Nat × α))),
      ((l.foldl (distStep G) acc).map Prod.fst) = acc.map Prod.fst ++ l := by
  intro l
  induction l with
  | nil => intro acc; simp
  | cons v l ih =>
    intro acc
    rw [List.foldl_cons, ih, distStep_keys]
    simp

theorem dist_dict_keys {G : DiGraph α} :
    (dist_dict G).map Prod.fst = topological_sort G := by
  unfold dist_dict
  rw [foldl_distStep_keys]
  simp

theorem foldl_distStep_prefix {G : DiGraph α} :
    ∀ (l : List α) (acc : List (α × (Nat × α))),
      ∃ rest, l.foldl (distStep G) acc = acc ++ rest := by
  intro l
  induction l with
  | nil => intro acc; exact ⟨[], by simp⟩
  | cons v l ih =>
    intro acc
    rw [List.foldl_cons]
    obtain ⟨rest, hrest⟩ := ih (distStep G acc v)
    unfold distStep at hrest
    cases hm : (predecessors G v).map (fun u => ((lookupD acc u (0, u)).1 + 1, u)) with
    | nil =>
      rw [hm] at hrest
      refine ⟨[(v, (0, v))] ++ rest, ?_⟩
      unfold distStep
      rw [hm, hrest, List.append_assoc]
    | cons p ps =>
      rw [hm] at hrest
      refine ⟨[(v, firstMax p ps)] ++ rest, ?_⟩
      unfold distStep
      rw [hm, hrest, List.append_assoc]

/-- The invariant of the `dist` dictionary that makes path reconstruction
work: an entry is either a source pointing at itself with value `0`, or has
positive value, points along a real edge, and the pointed-to entry has value
one less. -/
theorem dist_entry_inv {G : DiGraph α} (hwf : Wf G)
    (hdag : is_directed_acyclic_graph G = true) {l1 l2 : List α} {v : α}
    (hL : topological_sort G = l1 ++ v :: l2) :
    ((lookupD (dist_dict G) v (0, v)).1 = 0 ∧
      (lookupD (dist_dict G) v (0, v)).2 = v) ∨
    (1 ≤ (lookupD (dist_dict G) v (0, v)).1 ∧
      ((lookupD (dist_dict G) v (0, v)).2, v) ∈ G.edges ∧
      (lookupD (dist_dict G) v (0, v)).2 ∈ G.nodes ∧
      (lookupD (dist_dict G)
        (lookupD (dist_dict G) v (0, v)).2
        (0, (lookupD (dist_dict G) v (0, v)).2)).1 =
        (lookupD (dist_dict G) v (0, v)).1 - 1) := by
  have hnd : (topological_sort G).Nodup :=
    ((topological_sort_perm hwf hdag).nodup_iff).mpr hwf.1
  rw [hL] at hnd
  obtain ⟨hnd1, hnd2, hdisj⟩ := List.nodup_append.mp hnd
  have hvl1 : v ∉ l1 := fun hv => hdisj hv (List.mem_cons_self v l2)
  set A := l1.foldl (distStep G) ([] : List (α × (Nat × α))) with hA
  have hkeysA : A.map Prod.fst = l1 := by
    rw [hA, foldl_distStep_keys]
    simp
  have hD : dist_dict G = l2.foldl (distStep G) (distStep G A v) := by
    unfold dist_dict
    rw [hL, List.foldl_append, List.foldl_cons]
  obtain ⟨rest, hrest⟩ := foldl_distStep_prefix (G := G) l2 (distStep G A v)
  have hlookA : ∀ u ∈ predecessors G v,
      lookupD (dist_dict G) u (0, u) = lookupD A u (0, u) := by
    intro u hu
    obtain ⟨hunodes, huedge⟩ := mem_predecessors.mp hu
    have hgood : GoodOrder G (l1 ++ v :: l2) := by
      rw [← hL]
      exact topological_sort_good hwf hdag
    have hnopred := (goodOrder_suffix hgood).1
    have hunotl2 : u ∉ v :: l2 := fun hmem => hnopred u hmem huedge
    have huL : u ∈ l1 ++ v :: l2 := by
      rw [← hL]
      exact (topological_sort_perm hwf hdag).mem_iff.mpr hunodes
    have hul1 : u ∈ l1 := by
      rcases List.mem_append.mp huL with h | h
      · exact h
      · exact absurd h hunotl2
    have : dist_dict G = A ++ (distStep G A v).drop A.length ++ rest := by
      rw [hD, hrest]
      congr 1
      unfold distStep
      cases (predecessors G v).map (fun w => ((lookupD A w (0, w)).1 + 1, w)) with
      | nil => simp
      | cons p ps => simp
    rw [this, List.append_assoc,
      lookupD_append_left (by rw [hkeysA]; exact hul1)]
  cases hm : (predecessors G v).map
      (fun u => ((lookupD A u (0, u)).1 + 1, u)) with
  | nil =>
    left
    have hstep : distStep G A v = A ++ [(v, (0, v))] := by
      unfold distStep
      rw [hm]
    have hDfull : dist_dict G = A ++ ([(v, (0, v))] ++ rest) := by
      rw [hD, hrest, hstep, List.append_assoc]
    have hlv : lookupD (dist_dict G) v (0, v) = (0, v) := by
      rw [hDfull, lookupD_append_right (by rw [hkeysA]; exact hvl1),
        lookupD_append_left (by simp)]
      exact lookupD_cons_self
    rw [hlv]
    exact ⟨rfl, rfl⟩
  | cons p ps =>
    right
    have hstep : distStep G A v = A ++ [(v, firstMax p ps)] := by
      unfold distStep
      rw [hm]
    have hDfull : dist_dict G = A ++ ([(v, firstMax p ps)] ++ rest) := by
      rw [hD, hrest, hstep, List.append_assoc]
    have hlv : lookupD (dist_dict G) v (0, v) = firstMax p ps := by
      rw [hDfull, lookupD_append_right (by rw [hkeysA]; exact hvl1),
        lookupD_append_left (by simp)]
      exact lookupD_cons_self
    have hmemfm : firstMax p ps ∈ p :: ps := by
      rcases @firstMax_mem _ _ ps p with h | h
      · exact List.mem_cons.mpr (Or.inl h)
      · exact List.mem_cons_of_mem p h
    rw [← hm] at hmemfm
    obtain ⟨u0, hu0pred, hu0⟩ := List.mem_map.mp hmemfm
    obtain ⟨hu0nodes, hu0edge⟩ := mem_predecessors.mp hu0pred
    have hfst : (firstMax p ps).1 = (lookupD A u0 (0, u0)).1 + 1 := by
      rw [← hu0]
    have hsnd : (firstMax p ps).2 = u0 := by rw [← hu0]
    rw [hlv, hfst, hsnd]
    refine ⟨by omega, hu0edge, hu0nodes, ?_⟩
    rw [hlookA u0 hu0pred]
    omega

theorem lookupD_of_mem_nodup {β : Type} {l : List (α × β)} {p : α × β} {d : β}
    (hnd : (l.map Prod.fst).Nodup) (hp : p ∈ l) : lookupD l p.1 d = p.2 := by
  induction l with
  | nil => cases hp
  | cons q l ih =>
    rcases List.mem_cons.mp hp with rfl | hp'
    · unfold lookupD
      rw [List.find?_cons_of_pos _ (by simp)]
    · have hne : q.1 ≠ p.1 := by
        intro h
        have : p.1 ∈ l.map Prod.fst := List.mem_map.mpr ⟨p, hp', rfl⟩
        rw [List.map_cons] at hnd
        exact (List.nodup_cons.mp hnd).1 (h ▸ this)
      unfold lookupD at ih ⊢
      rw [List.find?_cons_of_neg _ (by simpa using hne)]
      exact ih (by rw [List.map_cons] at hnd; exact (List.nodup_cons.mp hnd).2) hp'

theorem buildPath_getLast {dist : List (α × (Nat × α))} :
    ∀ (n : Nat) (v : α), (buildPath dist n v).getLast? = some v := by
  intro n
  induction n with
  | zero => intro v; rfl
  | succ n ih =>
    intro v
    unfold buildPath
    by_cases h : (lookupD dist v (0, v)).2 = v
    · rw [if_pos h]
      rfl
    · rw [if_neg h]
      exact List.getLast?_concat _

theorem buildPath_ne_nil {dist : List (α × (Nat × α))} {n : Nat} {v : α} :
    buildPath dist n v ≠ [] := by
  intro h
  have := @buildPath_getLast _ _ dist n v
  rw [h] at this
  cases this

/-- Reconstruction invariant consequence: the node-indexed form of
`dist_entry_inv`. -/
theorem dist_inv_node {G : DiGraph α} (hwf : Wf G)
    (hdag : is_directed_acyclic_graph G = true) {v : α} (hv : v ∈ G.nodes) :
    ((lookupD (dist_dict G) v (0, v)).1 = 0 ∧
      (lookupD (dist_dict G) v (0, v)).2 = v) ∨
    (1 ≤ (lookupD (dist_dict G) v (0, v)).1 ∧
      ((lookupD (dist_dict G) v (0, v)).2, v) ∈ G.edges ∧
      (lookupD (dist_dict G) v (0, v)).2 ∈ G.nodes ∧
      (lookupD (dist_dict G)
        (lookupD (dist_dict G) v (0, v)).2
        (0, (lookupD (dist_dict G) v (0, v)).2)).1 =
        (lookupD (dist_dict G) v (0, v)).1 - 1) := by
  have hvL : v ∈ topological_sort G :=
    (topological_sort_perm hwf hdag).mem_iff.mpr hv
  obtain ⟨l1, l2, hL⟩ := List.append_of_mem hvL
  exact dist_entry_inv hwf hdag hL

theorem buildPath_length {G : DiGraph α} (hwf : Wf G)
    (hdag : is_directed_acyclic_graph G = true) :
    ∀ (n : Nat) (v : α), v ∈ G.nodes →
      (lookupD (dist_dict G) v (0, v)).1 ≤ n →
      (buildPath (dist_dict G) n v).length =
        (lookupD (dist_dict G) v (0, v)).1 + 1 := by
  intro n
  induction n with
  | zero =>
    intro v _ hle
    have : (lookupD (dist_dict G) v (0, v)).1 = 0 := by omega
    rw [this]
    rfl
  | succ n ih =>
    intro v hv hle
    rcases dist_inv_node hwf hdag hv with ⟨hd0, hu⟩ | ⟨h1, _, hunodes, hlku⟩
    · unfold buildPath
      rw [if_pos hu, hd0]
      rfl
    · by_cases hc : (lookupD (dist_dict G) v (0, v)).2 = v
      · rw [hc] at hlku
        omega
      · unfold buildPath
        rw [if_neg hc, List.length_append,
          ih (lookupD (dist_dict G) v (0, v)).2 hunodes (by omega), hlku]
        simp only [List.length_singleton]
        omega

theorem buildPath_mem {G : DiGraph α} (hwf : Wf G)
    (hdag : is_directed_acyclic_graph G = true) :
    ∀ (n : Nat) (v : α), v ∈ G.nodes →
      ∀ x ∈ buildPath (dist_dict G) n v, x ∈ G.nodes := by
  intro n
  induction n with
  | zero =>
    intro v hv x hx
    rcases List.mem_singleton.mp hx with rfl
    exact hv
  | succ n ih =>
    intro v hv x hx
    unfold buildPath at hx
    by_cases hc : (lookupD (dist_dict G) v (0, v)).2 = v
    · rw [if_pos hc] at hx
      rcases List.mem_singleton.mp hx with rfl
      exact hv
    · rw [if_neg hc] at hx
      rcases List.mem_append.mp hx with h | h
      · rcases dist_inv_node hwf hdag hv with ⟨_, hu⟩ | ⟨_, _, hunodes, _⟩
        · exact absurd hu hc
        · exact ih _ hunodes x h
      · rcases List.mem_singleton.mp h with rfl
        exact hv

theorem bestfold_fst {ps : List (α × (Nat × α))} :
    ∀ {p : α × (Nat × α)},
      ((ps.foldl (fun b q => if b.2.1 < q.2.1 then q else b) p)).2.1 =
        (ps.map (fun q => q.2.1)).foldl Nat.max p.2.1 := by
  induction ps with
  | nil => intro p; rfl
  | cons q ps ih =>
    intro p
    rw [List.foldl_cons, List.map_cons, List.foldl_cons, ih]
    congr 1
    by_cases h : p.2.1 < q.2.1
    · rw [if_pos h]
      exact (Nat.max_eq_right (Nat.le_of_lt h)).symm
    · rw [if_neg h]
      exact (Nat.max_eq_left (Nat.le_of_not_lt h)).symm

theorem bestfold_mem {ps : List (α × (Nat × α))} :
    ∀ {p : α × (Nat × α)},
      ps.foldl (fun b q => if b.2.1 < q.2.1 then q else b) p = p ∨
      ps.foldl (fun b q => if b.2.1 < q.2.1 then q else b) p ∈ ps := by
  induction ps with
  | nil => intro p; exact Or.inl rfl
  | cons q ps ih =>
    intro p
    rw [List.foldl_cons]
    by_cases hc : p.2.1 < q.2.1
    · rw [if_pos hc]
      rcases @ih q with h | h
      · exact Or.inr (List.mem_cons.mpr (Or.inl h))
      · exact Or.inr (List.mem_cons_of_mem q h)
    · rw [if_neg hc]
      rcases @ih p with h | h
      · exact Or.inl h
      · exact Or.inr (List.mem_cons_of_mem q h)

theorem bestfold_ge {ps : List (α × (Nat × α))} {p q : α × (Nat × α)}
    (hq : q ∈ p :: ps) :
    q.2.1 ≤ ((ps.foldl (fun b q => if b.2.1 < q.2.1 then q else b) p)).2.1 := by
  rw [bestfold_fst]
  rcases List.mem_cons.mp hq with rfl | hq'
  · exact init_le_foldl_max
  · exact mem_le_foldl_max (List.mem_map.mpr ⟨q, hq', rfl⟩)

theorem depth_lookup_le {G : DiGraph α} {v : α} :
    lookupD (depth_dict G) v 0 ≤ G.nodes.length := by
  rcases lookupD_values (l := depth_dict G) (k := v) (d := 0) with h | ⟨p, hp, _, hpv⟩
  · rw [h]
    exact Nat.zero_le _
  · rw [← hpv]
    exact depth_dict_value_le p hp

/-- Full specification of `dag_longest_path` on a non-empty well-formed DAG:
it returns a non-empty path through graph nodes whose last element has
maximal depth, and whose length is that maximal depth plus one. -/
theorem dag_longest_path_spec {G : DiGraph α} (hwf : Wf G)
    (hdag : is_directed_acyclic_graph G = true) (hne : G.nodes ≠ []) :
    ∃ b, b ∈ G.nodes ∧ (dag_longest_path G).getLast? = some b ∧
      (dag_longest_path G).length = lookupD (depth_dict G) b 0 + 1 ∧
      (∀ u ∈ G.nodes, lookupD (depth_dict G) u 0 ≤ lookupD (depth_dict G) b 0) ∧
      (∀ x ∈ dag_longest_path G, x ∈ G.nodes) := by
  have hkeys : (dist_dict G).map Prod.fst = topological_sort G := dist_dict_keys
  have hndkeys : ((dist_dict G).map Prod.fst).Nodup := by
    rw [hkeys]
    exact ((topological_sort_perm hwf hdag).nodup_iff).mpr hwf.1
  have hpathu : dag_longest_path G =
      match dist_dict G with
      | [] => []
      | p :: ps =>
        buildPath (p :: ps) G.nodes.length
          (ps.foldl (fun b q => if b.2.1 < q.2.1 then q else b) p).1 := by
    unfold dag_longest_path
    rw [if_neg (by simpa [List.isEmpty_iff] using hne)]
  cases hdist : dist_dict G with
  | nil =>
    exfalso
    have h1 : (topological_sort G).length = G.nodes.length :=
      (topological_sort_perm hwf hdag).length_eq
    have h2 : ((dist_dict G).map Prod.fst).length = 0 := by
      rw [hdist]
      rfl
    rw [hkeys, h1] at h2
    exact hne (List.length_eq_zero.mp (by simpa using h2))
  | cons p ps =>
    set best := ps.foldl (fun b q => if b.2.1 < q.2.1 then q else b) p with hbest
    have hbestmem : best ∈ dist_dict G := by
      rw [hdist]
      rcases @bestfold_mem _ _ ps p with h | h
      · exact List.mem_cons.mpr (Or.inl h)
      · exact List.mem_cons_of_mem p h
    have hbnodes : best.1 ∈ G.nodes := by
      have : best.1 ∈ (dist_dict G).map Prod.fst :=
        List.mem_map.mpr ⟨best, hbestmem, rfl⟩
      rw [hkeys] at this
      exact (topological_sort_perm hwf hdag).mem_iff.mp this
    have hlookb : lookupD (dist_dict G) best.1 (0, best.1) = best.2 :=
      lookupD_of_mem_nodup hndkeys hbestmem
    have hresult : dag_longest_path G =
        buildPath (dist_dict G) G.nodes.length best.1 := by
      rw [hpathu, hdist]
    refine ⟨best.1, hbnodes, ?_, ?_, ?_, ?_⟩
    · rw [hresult]
      exact buildPath_getLast _ _
    · have hle : (lookupD (dist_dict G) best.1 (0, best.1)).1 ≤
          G.nodes.length := by
        rw [dist_lookup_fst]
        exact depth_lookup_le
      rw [hresult, buildPath_length hwf hdag _ _ hbnodes hle, dist_lookup_fst]
    · intro u hu
      have huL : u ∈ topological_sort G :=
        (topological_sort_perm hwf hdag).mem_iff.mpr hu
      have hukeys : u ∈ (dist_dict G).map Prod.fst := by rw [hkeys]; exact huL
      obtain ⟨q, hq, hq1⟩ := List.mem_map.mp hukeys
      have hlq : lookupD (dist_dict G) u (0, u) = q.2 := by
        rw [← hq1]
        exact lookupD_of_mem_nodup hndkeys hq
      have hge : q.2.1 ≤ best.2.1 := by
        rw [hbest]
        exact bestfold_ge (by rw [← hdist]; exact hq)
      rw [← dist_lookup_fst (G := G) (v := u), hlq,
        ← dist_lookup_fst (G := G) (v := best.1), hlookb]
      exact hge
    · intro x hx
      rw [hresult] at hx
      exact buildPath_mem hwf hdag _ _ hbnodes x hx

theorem subgraphOn_wf {G : DiGraph α} {s : List α} (hwf : Wf G) :
    Wf (subgraphOn G s) := by
  constructor
  · exact List.Nodup.filter _ hwf.1
  · intro e he
    have he' := List.mem_filter.mp he
    obtain ⟨h1, h2⟩ := by simpa using he'.2
    obtain ⟨hu, hv⟩ := hwf.2 e he'.1
    exact ⟨List.mem_filter.mpr ⟨hu, by simpa using h1⟩,
      List.mem_filter.mpr ⟨hv, by simpa using h2⟩⟩

theorem subgraphOn_edge_sub {G : DiGraph α} {s : List α} {u v : α}
    (h : E (subgraphOn G s) u v) : E G u v := by
  unfold E at *
  exact (List.mem_filter.mp h).1

theorem subgraphOn_dag {G : DiGraph α} {s : List α}
    (hdag : is_directed_acyclic_graph G = true) :
    is_directed_acyclic_graph (subgraphOn G s) = true := by
  rw [isDAG_iff] at *
  intro v hv
  exact hdag v (Relation.TransGen.mono (fun _ _ => subgraphOn_edge_sub) hv)

theorem mem_ancClosure {G : DiGraph α} {t x : α} :
    x ∈ ancClosure G t ↔ x = t ∨ (x ∈ G.nodes ∧ x ≠ t ∧ Reaches G x t) := by
  unfold ancClosure
  rw [List.mem_cons, mem_ancestors]

theorem mem_ancSubgraph_nodes {G : DiGraph α} {t x : α} :
    x ∈ (subgraphOn G (ancClosure G t)).nodes ↔
      x ∈ G.nodes ∧ x ∈ ancClosure G t := by
  unfold subgraphOn
  simp

theorem reaches_transfer_anc {G : DiGraph α} (hwf : Wf G) {t x : α}
    (hx : x ∈ G.nodes) (h : Reaches G x t) :
    Reaches (subgraphOn G (ancClosure G t)) x t := by
  induction h using Relation.ReflTransGen.head_induction_on with
  | refl => exact Relation.ReflTransGen.refl
  | head hedge htail ih =>
    rename_i a c
    have hc : c ∈ G.nodes := (hwf.2 _ hedge).2
    have hamem : a ∈ ancClosure G t := by
      rw [mem_ancClosure]
      by_cases hat : a = t
      · exact Or.inl hat
      · exact Or.inr ⟨hx, hat, Relation.ReflTransGen.head hedge htail⟩
    have hcmem : c ∈ ancClosure G t := by
      rw [mem_ancClosure]
      by_cases hct : c = t
      · exact Or.inl hct
      · exact Or.inr ⟨hc, hct, htail⟩
    have hedge' : E (subgraphOn G (ancClosure G t)) a c := by
      unfold E subgraphOn at *
      refine List.mem_filter.mpr ⟨hedge, ?_⟩
      simp only [Bool.and_eq_true, decide_eq_true_eq]
      exact ⟨hamem, hcmem⟩
    exact Relation.ReflTransGen.head hedge' (ih hc)

theorem transGen_to_target {G : DiGraph α} (hwf : Wf G) {t u : α}
    (hu : u ∈ (subgraphOn G (ancClosure G t)).nodes) (hne : u ≠ t) :
    Relation.TransGen (E (subgraphOn G (ancClosure G t))) u t := by
  obtain ⟨hunodes, humem⟩ := mem_ancSubgraph_nodes.mp hu
  rcases mem_ancClosure.mp humem with rfl | ⟨_, _, hreach⟩
  · exact absurd rfl hne
  · rcases Relation.ReflTransGen.cases_head hreach with rfl | ⟨c, hedge, htail⟩
    · exact absurd rfl hne
    · have hc : c ∈ G.nodes := (hwf.2 _ hedge).2
      have hcmem : c ∈ ancClosure G t := by
        rw [mem_ancClosure]
        by_cases hct : c = t
        · exact Or.inl hct
        · exact Or.inr ⟨hc, hct, htail⟩
      have hedge' : E (subgraphOn G (ancClosure G t)) u c := by
        unfold E subgraphOn at *
        refine List.mem_filter.mpr ⟨hedge, ?_⟩
        simp only [Bool.and_eq_true, decide_eq_true_eq]
        exact ⟨humem, hcmem⟩
      exact Relation.TransGen.head' hedge'
        (reaches_transfer_anc hwf hc htail)

/-- On a well-formed DAG containing `target`, `find_critical_path_to`
succeeds and returns a non-empty path ending at `target`. -/
theorem find_critical_path_to_spec {G : DiGraph α} (hwf : Wf G)
    (hdag : is_directed_acyclic_graph G = true) {t : α} (ht : t ∈ G.nodes) :
    find_critical_path_to G t =
      Except.ok (dag_longest_path (subgraphOn G (ancClosure G t))) ∧
    dag_longest_path (subgraphOn G (ancClosure G t)) ≠ [] ∧
    (dag_longest_path (subgraphOn G (ancClosure G t))).getLast? = some t := by
  have hsubwf : Wf (subgraphOn G (ancClosure G t)) := subgraphOn_wf hwf
  have hsubdag := subgraphOn_dag (G := G) (s := ancClosure G t) hdag
  have htsub : t ∈ (subgraphOn G (ancClosure G t)).nodes :=
    mem_ancSubgraph_nodes.mpr ⟨ht, by rw [mem_ancClosure]; exact Or.inl rfl⟩
  have hsubne : (subgraphOn G (ancClosure G t)).nodes ≠ [] := by
    intro h
    rw [h] at htsub
    cases htsub
  obtain ⟨b, hbnodes, hlast, hlen, hmax, hmem⟩ :=
    dag_longest_path_spec hsubwf hsubdag hsubne
  have hbt : b = t := by
    by_contra hne
    have htg := transGen_to_target hwf hbnodes hne
    have hlt := depth_mono_transGen hsubwf hsubdag htg
    have hle := hmax t htsub
    omega
  subst hbt
  refine ⟨?_, ?_, hlast⟩
  · unfold find_critical_path_to
    rw [if_neg (by simpa using ht)]
    unfold ensure_dag
    rw [if_pos hdag]
  · intro h
    rw [h] at hlast
    cases hlast

theorem depth_dict_of_empty {G : DiGraph α} (h : G.nodes = []) :
    depth_dict G = [] := by
  unfold depth_dict topological_sort
  rw [h]
  rfl

theorem compute_dependency_depth_ok {G : DiGraph α}
    (hdag : is_directed_acyclic_graph G = true) :
    compute_dependency_depth G = Except.ok (depth_dict G) := by
  unfold compute_dependency_depth
  by_cases h : G.nodes.length = 0
  · rw [if_pos h, depth_dict_of_empty (List.length_eq_zero.mp h)]
  · rw [if_neg h]
    unfold ensure_dag
    rw [if_pos hdag]

theorem compute_topological_layers_ok {G : DiGraph α}
    (hdag : is_directed_acyclic_graph G = true) :
    compute_topological_layers G = Except.ok (depth_dict G) :=
  compute_dependency_depth_ok hdag

theorem dag_longest_path_of_empty {G : DiGraph α} (h : G.nodes = []) :
    dag_longest_path G = [] := by
  unfold dag_longest_path
  rw [if_pos (by rw [h]; rfl)]

theorem find_critical_path_ok {G : DiGraph α}
    (hdag : is_directed_acyclic_graph G = true) :
    find_critical_path G = Except.ok (dag_longest_path G) := by
  unfold find_critical_path
  by_cases h : G.nodes.length = 0
  · rw [if_pos h, dag_longest_path_of_empty (List.length_eq_zero.mp h)]
  · rw [if_neg h]
    unfold ensure_dag
    rw [if_pos hdag]

theorem compute_graph_depth_ok {G : DiGraph α}
    (hdag : is_directed_acyclic_graph G = true) :
    compute_graph_depth G = Except.ok ((dag_longest_path G).length - 1) := by
  unfold compute_graph_depth
  by_cases h : G.nodes.length = 0
  · rw [if_pos h, dag_longest_path_of_empty (List.length_eq_zero.mp h)]
    rfl
  · rw [if_neg h]
    unfold ensure_dag
    rw [if_pos hdag]

theorem compute_bottleneck_scores_ok {G : DiGraph α}
    (hdag : is_directed_acyclic_graph G = true) :
    compute_bottleneck_scores G = Except.ok (G.nodes.map (fun v =>
      let nd := (descendants G v).length
      let na := (ancestors G v).length
      (v, if nd = 0 then 0
          else if na = 0 then (nd : ℚ)
          else (nd : ℚ) / (na : ℚ)))) := by
  unfold compute_bottleneck_scores
  by_cases h : G.nodes.length = 0
  · rw [if_pos h, List.length_eq_zero.mp h]
    rfl
  · rw [if_neg h]
    unfold ensure_dag
    rw [if_pos hdag]

/-- The report that `_analyze_pure_dag` produces on a DAG (proved in
`analyze_pure_dag_ok`); an abbreviation for the verification layer. -/
def pureReport [LinearOrder α] (G : DiGraph α) : Report α :=
  { is_dag := true
    has_cycles := false
    num_sccs_with_cycles := 0
    depths := depth_dict G
    layers := depth_dict G
    sources := find_sources G
    sinks := find_sinks G
    widths := compute_proof_width G
    bottleneck_scores := G.nodes.map (fun v =>
      let nd := (descendants G v).length
      let na := (ancestors G v).length
      (v, if nd = 0 then 0
          else if na = 0 then (nd : ℚ)
          else (nd : ℚ) / (na : ℚ)))
    reachability := compute_reachability_count G
    critical_path := dag_longest_path G
    graph_depth := (dag_longest_path G).length - 1
    num_layers := if (depth_dict G).isEmpty then 0
      else ((depth_dict G).map Prod.snd).foldl Nat.max 0 + 1
    num_sources := (find_sources G).length
    num_sinks := (find_sinks G).length }

theorem analyze_pure_dag_ok [LinearOrder α] {G : DiGraph α}
    (hdag : is_directed_acyclic_graph G = true) :
    analyze_pure_dag G = Except.ok (pureReport G) := by
  unfold analyze_pure_dag
  rw [compute_dependency_depth_ok hdag, compute_topological_layers_ok hdag,
    compute_bottleneck_scores_ok hdag, find_critical_path_ok hdag,
    compute_graph_depth_ok hdag]
  rfl

/-- The report that `_analyze_with_condensation` produces (proved in
`analyze_with_condensation_ok`); an abbreviation for the verification
layer. -/
def condReport (G : DiGraph α) : Report α :=
  { is_dag := true
    has_cycles := true
    num_sccs_with_cycles :=
      ((sccs G).filter (fun c => decide (1 < c.length))).length
    depths := G.nodes.map (fun v =>
      (v, lookupD (depth_dict (condensation G)) (sccIdx G v) 0))
    layers := G.nodes.map (fun v =>
      (v, lookupD (depth_dict (condensation G)) (sccIdx G v) 0))
    sources := G.nodes.filter (fun v =>
      ((predecessors G v).filter
        (fun p => decide (sccIdx G p ≠ sccIdx G v))).isEmpty
      && decide (lookupD (depth_dict (condensation G)) (sccIdx G v) 0 = 0))
    sinks := G.nodes.filter (fun v =>
      ((successors G v).filter
        (fun s => decide (sccIdx G s ≠ sccIdx G v))).isEmpty
      && decide (lookupD (depth_dict (condensation G)) (sccIdx G v) 0 =
        ((depth_dict (condensation G)).map Prod.snd).foldl Nat.max 0))
    widths := G.nodes.map (fun v => (v, in_degree G v))
    bottleneck_scores := G.nodes.map (fun v =>
      (v, lookupD ((condensation G).nodes.map (fun w =>
        let nd := (descendants (condensation G) w).length
        let na := (ancestors (condensation G) w).length
        (w, if nd = 0 then 0
            else if na = 0 then (nd : ℚ)
            else (nd : ℚ) / (na : ℚ)))) (sccIdx G v) 0))
    reachability := G.nodes.map (fun v =>
      (v, lookupD (compute_reachability_count (condensation G)) (sccIdx G v) 0
        + ((sccs G).getD (sccIdx G v) []).length - 1))
    critical_path := (dag_longest_path (condensation G)).filterMap
      (fun i => ((sccs G).getD i []).head?)
    graph_depth := ((G.nodes.map (fun v =>
      (v, lookupD (depth_dict (condensation G)) (sccIdx G v) 0))).map
        Prod.snd).foldl Nat.max 0
    num_layers := if (G.nodes.map (fun v =>
        (v, lookupD (depth_dict (condensation G)) (sccIdx G v) 0))).isEmpty
      then 0
      else (((G.nodes.map (fun v =>
        (v, lookupD (depth_dict (condensation G)) (sccIdx G v) 0))).map
          Prod.snd).foldl Nat.max 0) + 1
    num_sources := (G.nodes.filter (fun v =>
      ((predecessors G v).filter
        (fun p => decide (sccIdx G p ≠ sccIdx G v))).isEmpty
      && decide (lookupD (depth_dict (condensation G)) (sccIdx G v) 0 =
        0))).length
    num_sinks := (G.nodes.filter (fun v =>
      ((successors G v).filter
        (fun s => decide (sccIdx G s ≠ sccIdx G v))).isEmpty
      && decide (lookupD (depth_dict (condensation G)) (sccIdx G v) 0 =
        ((depth_dict (condensation G)).map Prod.snd).foldl Nat.max 0))).length }

theorem analyze_with_condensation_ok {G : DiGraph α} (hwf : Wf G) :
    analyze_with_condensation G = Except.ok (condReport G) := by
  have hdagC := condensation_acyclic hwf
  unfold analyze_with_condensation
  simp only [compute_dependency_depth_ok hdagC,
    compute_topological_layers_ok hdagC,
    compute_bottleneck_scores_ok hdagC, find_critical_path_ok hdagC]
  rfl

theorem lookupD_map_self {β : Type} {l : List α} {f : α → β} {k : α} {d : β}
    (hnd : l.Nodup) (hk : k ∈ l) :
    lookupD (l.map (fun x => (x, f x))) k d = f k := by
  have hp : (k, f k) ∈ l.map (fun x => (x, f x)) :=
    List.mem_map.mpr ⟨k, hk, rfl⟩
  have hkeys : ((l.map (fun x => (x, f x))).map Prod.fst).Nodup := by
    rw [List.map_map]
    have hcomp : (Prod.fst ∘ fun x : α => (x, f x)) = (id : α → α) := rfl
    rw [hcomp, List.map_id]
    exact hnd
  exact lookupD_of_mem_nodup hkeys hp

theorem length_filterMap_all_some {β : Type} {f : α → Option β} :
    ∀ {l : List α}, (∀ x ∈ l, (f x).isSome = true) →
      (l.filterMap f).length = l.length := by
  intro l
  induction l with
  | nil => intro _; rfl
  | cons a l ih =>
    intro h
    have ha := h a (List.mem_cons_self a l)
    obtain ⟨b, hb⟩ := Option.isSome_iff_exists.mp ha
    rw [List.filterMap_cons, hb]
    simp only [List.length_cons]
    rw [ih fun x hx => h x (List.mem_cons_of_mem a hx)]

/-- Claim C1, counterexample: `build_networkx_graph` never fails.  With node
set `{A}` and the dangling edge `A → B` it raises nothing and silently
returns the graph without that edge — there is no `InvalidGraph` error path
in `graph_builder.py` at all, contradicting "fails with InvalidGraph if some
edge references a node outside the node set (no edge is silently
omitted)". -/
theorem c1_counterexample :
    build_networkx_graph [⟨"A"⟩] [⟨"A", "B"⟩] =
      { nodes := ["A"], edges := [] } ∧
    ("A", "B") ∉ (build_networkx_graph [⟨"A"⟩] [⟨"A", "B"⟩]).edges := by
  constructor
  · rfl
  · decide

/-- Claim C1, amended: graph construction never fails; an edge referencing a
node outside the supplied node set is silently omitted.  When every edge
endpoint is in the node set, the built graph contains exactly the supplied
nodes and exactly the supplied edges (as sets — networkx deduplicates
repeated insertions). -/
theorem c1_amended (nodes : List Node) (edges : List Edge)
    (h : ∀ e ∈ edges,
      e.source ∈ nodes.map Node.id ∧ e.target ∈ nodes.map Node.id) :
    (∀ n, n ∈ (build_networkx_graph nodes edges).nodes ↔
      n ∈ nodes.map Node.id) ∧
    (∀ s t, (s, t) ∈ (build_networkx_graph nodes edges).edges ↔
      ∃ e ∈ edges, e.source = s ∧ e.target = t) := by
  constructor
  · intro n
    unfold build_networkx_graph
    exact mem_dedupF
  · intro s t
    unfold build_networkx_graph
    rw [mem_dedupF]
    constructor
    · intro hmem
      obtain ⟨e, he, heq⟩ := List.mem_map.mp hmem
      obtain ⟨h1, h2⟩ := Prod.mk.injEq _ _ _ _ ▸ heq
      exact ⟨e, List.mem_of_mem_filter he, h1, h2⟩
    · rintro ⟨e, he, h1, h2⟩
      refine List.mem_map.mpr ⟨e, ?_, by rw [h1, h2]⟩
      refine List.mem_filter.mpr ⟨he, ?_⟩
      simp only [Bool.and_eq_true, decide_eq_true_eq]
      exact h e he

/-- Witness for the amended C1 at a concrete input: with nodes `{A, B}` and
edge `A → B`, the edge is present in the built graph. -/
theorem c1_amended_witness :
    ("A", "B") ∈ (build_networkx_graph [⟨"A"⟩, ⟨"B"⟩] [⟨"A", "B"⟩]).edges := by
  have h := c1_amended [⟨"A"⟩, ⟨"B"⟩] [⟨"A", "B"⟩] (by decide)
  exact (h.2 "A" "B").mpr ⟨⟨"A", "B"⟩, by decide, rfl, rfl⟩

/-- Claim C2, counterexample: in the graph with the single node `A` and the
self-loop `A → A` (cyclic, so the condensation branch runs), `A` is reported
as a source although its in-degree in the original graph is `1`, not `0` —
the code only requires "no predecessor outside the own SCC", not
"in-degree 0 in the original graph". -/
theorem c2_counterexample :
    (analyze_dag (⟨["A"], [("A", "A")]⟩ : DiGraph String)).toOption.map
      Report.sources = some ["A"] ∧
    in_degree (⟨["A"], [("A", "A")]⟩ : DiGraph String) "A" = 1 := by
  constructor
  · rfl
  · rfl

/-- Claim C2, amended: on acyclic input a node is a reported source iff its
in-degree is `0` (as claimed); on cyclic input a node is reported as a
source iff all its predecessors lie in its own SCC (so it may have positive
in-degree from intra-SCC edges) and its SCC has depth `0` in the
condensation — the in-degree-0 requirement of the claim does not hold
there. -/
theorem c2_amended {G : DiGraph String} (hwf : Wf G) {r : Report String}
    (hr : analyze_dag G = Except.ok r) (v : String) :
    (is_directed_acyclic_graph G = true →
      (v ∈ r.sources ↔ v ∈ G.nodes ∧ in_degree G v = 0)) ∧
    (is_directed_acyclic_graph G = false →
      (v ∈ r.sources ↔
        v ∈ G.nodes ∧
        (∀ u ∈ predecessors G v, sccIdx G u = sccIdx G v) ∧
        lookupD (depth_dict (condensation G)) (sccIdx G v) 0 = 0)) := by
  constructor
  · intro hdag
    unfold analyze_dag at hr
    rw [if_pos hdag, analyze_pure_dag_ok hdag] at hr
    have hrr : r = pureReport G := by
      injection hr with h
      exact h.symm
    subst hrr
    show v ∈ find_sources G ↔ _
    unfold find_sources
    rw [(List.mergeSort_perm _ _).mem_iff, List.mem_filter]
    simp
  · intro hcyc
    have hcond : ¬ (is_directed_acyclic_graph G = true) := by
      rw [hcyc]
      simp
    unfold analyze_dag at hr
    rw [if_neg hcond, analyze_with_condensation_ok hwf] at hr
    have hrr : r = condReport G := by
      injection hr with h
      exact h.symm
    subst hrr
    show v ∈ (condReport G).sources ↔ _
    unfold condReport
    simp only [List.mem_filter, Bool.and_eq_true, decide_eq_true_eq,
      List.isEmpty_iff, List.filter_eq_nil_iff, decide_eq_true_eq]
    constructor
    · rintro ⟨hv, ⟨hpred, hdep⟩⟩
      refine ⟨hv, ?_, hdep⟩
      intro u hu
      by_contra hne
      exact hpred u hu hne
    · rintro ⟨hv, hpred, hdep⟩
      refine ⟨hv, ?_, hdep⟩
      intro u hu hne
      exact hne (hpred u hu)

/-- Witness for the amended C2 at the self-loop graph: `A` is in the
reported sources although its in-degree is positive. -/
theorem c2_amended_witness :
    ("A" : String) ∈ (condReport (⟨["A"], [("A", "A")]⟩ : DiGraph String)).sources := by
  have h := (c2_amended (G := ⟨["A"], [("A", "A")]⟩) (by decide)
    (r := condReport (⟨["A"], [("A", "A")]⟩ : DiGraph String))
    (by
      unfold analyze_dag
      rw [if_neg (by decide)]
      exact analyze_with_condensation_ok (by decide)) "A").2 (by decide)
  exact h.mpr (by decide)

/-- Claim C3: for every well-formed input graph, cyclic or not, the
top-level entry point `analyze_dag` succeeds — the `ValueError` of
`_ensure_dag` inside the depth/critical-path routines is unreachable,
because cyclic input is condensed first and the condensation is acyclic
(`condensation_acyclic`). -/
theorem c3_no_dag_error (G : DiGraph String) (hwf : Wf G) :
    ∃ r, analyze_dag G = Except.ok r := by
  by_cases hdag : is_directed_acyclic_graph G = true
  · refine ⟨pureReport G, ?_⟩
    unfold analyze_dag
    rw [if_pos hdag]
    exact analyze_pure_dag_ok hdag
  · refine ⟨condReport G, ?_⟩
    unfold analyze_dag
    rw [if_neg hdag]
    exact analyze_with_condensation_ok hwf

/-- Witness for C3 on a concrete cyclic graph (3-cycle with a tail). -/
theorem c3_witness :
    ∃ r, analyze_dag (⟨["A", "B", "C", "D"],
      [("A", "B"), ("B", "C"), ("C", "A"), ("C", "D")]⟩ : DiGraph String) =
      Except.ok r :=
  c3_no_dag_error _ (by decide)

/-- Claim C4: on cyclic input, the reported reachability of a node is the
number of descendants of its SCC in the condensation plus the size of its
own SCC minus one. -/
theorem c4_reachability_condensation {G : DiGraph String} (hwf : Wf G)
    (hcyc : is_directed_acyclic_graph G = false) {r : Report String}
    (hr : analyze_dag G = Except.ok r) {v : String} (hv : v ∈ G.nodes) :
    v ∈ (sccs G).getD (sccIdx G v) [] ∧
    lookupD r.reachability v 0 =
      (descendants (condensation G) (sccIdx G v)).length
        + ((sccs G).getD (sccIdx G v) []).length - 1 := by
  have hcond : ¬ (is_directed_acyclic_graph G = true) := by
    rw [hcyc]
    simp
  unfold analyze_dag at hr
  rw [if_neg hcond, analyze_with_condensation_ok hwf] at hr
  have hrr : r = condReport G := by
    injection hr with h
    exact h.symm
  subst hrr
  have hlt : sccIdx G v < (sccs G).length := sccIdx_lt hv
  constructor
  · rw [List.getD_eq_getElem (sccs G) [] hlt]
    have := mem_scc_sccIdx hv
    simpa [List.get_eq_getElem] using this
  · have hreach : (condReport G).reachability = G.nodes.map (fun w =>
        (w, lookupD (compute_reachability_count (condensation G))
          (sccIdx G w) 0
          + ((sccs G).getD (sccIdx G w) []).length - 1)) := rfl
    rw [hreach, lookupD_map_self hwf.1 hv]
    congr 1
    have hCnd : (condensation G).nodes.Nodup := List.nodup_range _
    have hCv : sccIdx G v ∈ (condensation G).nodes := by
      unfold condensation
      simpa [List.mem_range] using hlt
    unfold compute_reachability_count
    rw [lookupD_map_self hCnd hCv]

/-- Witness for C4 at scenario C of the spec (3-cycle `A→B→C→A` plus
`C→D`): each cycle node reports reachability `1 + 3 − 1 = 3`, i.e. the
condensation figure adjusted by `+2`. -/
theorem c4_witness :
    lookupD (condReport (⟨["A", "B", "C", "D"],
      [("A", "B"), ("B", "C"), ("C", "A"), ("C", "D")]⟩ : DiGraph String)).reachability
      "A" 0 = 3 ∧
    (descendants (condensation (⟨["A", "B", "C", "D"],
      [("A", "B"), ("B", "C"), ("C", "A"), ("C", "D")]⟩ : DiGraph String))
      (sccIdx (⟨["A", "B", "C", "D"],
        [("A", "B"), ("B", "C"), ("C", "A"), ("C", "D")]⟩ : DiGraph String)
        "A")).length = 1 ∧
    ((sccs (⟨["A", "B", "C", "D"],
      [("A", "B"), ("B", "C"), ("C", "A"), ("C", "D")]⟩ : DiGraph String)).getD
      (sccIdx (⟨["A", "B", "C", "D"],
        [("A", "B"), ("B", "C"), ("C", "A"), ("C", "D")]⟩ : DiGraph String)
        "A") []).length = 3 := by
  have h := c4_reachability_condensation
    (G := ⟨["A", "B", "C", "D"],
      [("A", "B"), ("B", "C"), ("C", "A"), ("C", "D")]⟩)
    (by decide) (by decide)
    (r := condReport (⟨["A", "B", "C", "D"],
      [("A", "B"), ("B", "C"), ("C", "A"), ("C", "D")]⟩ : DiGraph String))
    (by
      unfold analyze_dag
      rw [if_neg (by decide)]
      exact analyze_with_condensation_ok (by decide))
    (v := "A") (by decide)
  refine ⟨?_, by decide, by decide⟩
  rw [h.2]
  decide

/-- Claim C5: on every well-formed DAG, `compute_dependency_depth` assigns
`0` to nodes without predecessors and `1 + max(depth of predecessors)` to
every other node; consequently `depth(v) ≥ 1 + depth(u)` for every edge
`(u, v)`. -/
theorem c5_depth_recurrence {G : DiGraph String} (hwf : Wf G)
    (hdag : is_directed_acyclic_graph G = true) {d : List (String × Nat)}
    (hd : compute_dependency_depth G = Except.ok d) :
    (∀ v ∈ G.nodes, predecessors G v = [] → lookupD d v 0 = 0) ∧
    (∀ v ∈ G.nodes, predecessors G v ≠ [] →
      (∃ u ∈ predecessors G v, lookupD d v 0 = 1 + lookupD d u 0) ∧
      (∀ u ∈ predecessors G v, 1 + lookupD d u 0 ≤ lookupD d v 0)) ∧
    (∀ u v : String, (u, v) ∈ G.edges →
      1 + lookupD d u 0 ≤ lookupD d v 0) := by
  rw [compute_dependency_depth_ok hdag] at hd
  have hdd : d = depth_dict G := by
    injection hd with h
    exact h.symm
  subst hdd
  refine ⟨?_, ?_, ?_⟩
  · intro v hv hp
    rw [depth_dict_lookup hwf hdag hv, if_pos (by rw [hp]; rfl)]
  · intro v hv hp
    have hne : ¬ (predecessors G v).isEmpty = true := by
      rw [List.isEmpty_iff]
      exact hp
    constructor
    · rw [depth_dict_lookup hwf hdag hv, if_neg hne]
      have hmm := foldl_max_zero_mem
        (l := (predecessors G v).map (fun u => lookupD (depth_dict G) u 0))
        (by simpa using hp)
      obtain ⟨u, hu, hval⟩ := List.mem_map.mp hmm
      exact ⟨u, hu, by rw [hval]⟩
    · intro u hu
      exact depth_mono_edge hwf hdag (mem_predecessors.mp hu).2
  · intro u v he
    exact depth_mono_edge hwf hdag he

/-- Witness for C5 at the chain `A→B→C→D`: the edge law at `(A, B)`. -/
theorem c5_witness :
    1 + lookupD (depth_dict (⟨["A", "B", "C", "D"],
      [("A", "B"), ("B", "C"), ("C", "D")]⟩ : DiGraph String)) "A" 0 ≤
    lookupD (depth_dict (⟨["A", "B", "C", "D"],
      [("A", "B"), ("B", "C"), ("C", "D")]⟩ : DiGraph String)) "B" 0 :=
  (c5_depth_recurrence (by decide) (by decide)
    (compute_dependency_depth_ok (by decide))).2.2 "A" "B" (by decide)

/-- Claim C6: on every well-formed DAG the bottleneck score of a node is
`0` when it has no descendants, the raw descendant count when it has
descendants but no ancestors, and the exact ratio `descendants/ancestors`
otherwise (Python float division modelled over `ℚ`). -/
theorem c6_bottleneck_formula {G : DiGraph String} (hwf : Wf G)
    (hdag : is_directed_acyclic_graph G = true) {b : List (String × ℚ)}
    (hb : compute_bottleneck_scores G = Except.ok b) {v : String}
    (hv : v ∈ G.nodes) :
    lookupD b v 0 =
      if (descendants G v).length = 0 then 0
      else if (ancestors G v).length = 0 then ((descendants G v).length : ℚ)
      else ((descendants G v).length : ℚ) / ((ancestors G v).length : ℚ) := by
  rw [compute_bottleneck_scores_ok hdag] at hb
  have hbb : b = G.nodes.map (fun w =>
      let nd := (descendants G w).length
      let na := (ancestors G w).length
      (w, if nd = 0 then 0
          else if na = 0 then (nd : ℚ)
          else (nd : ℚ) / (na : ℚ))) := by
    injection hb with h
    exact h.symm
  subst hbb
  exact lookupD_map_self (f := fun w =>
    if (descendants G w).length = 0 then (0 : ℚ)
    else if (ancestors G w).length = 0 then ((descendants G w).length : ℚ)
    else ((descendants G w).length : ℚ) / ((ancestors G w).length : ℚ))
    hwf.1 hv

/-- Witness for C6 at scenario B of the spec (diamond): `A` has three
descendants and no ancestors, so its score is the raw count `3`. -/
theorem c6_witness :
    ∃ b, compute_bottleneck_scores (⟨["A", "B", "C", "D"],
      [("A", "B"), ("A", "C"), ("B", "D"), ("C", "D")]⟩ : DiGraph String) =
      Except.ok b ∧ lookupD b "A" 0 = 3 := by
  refine ⟨_, compute_bottleneck_scores_ok (by decide), ?_⟩
  rw [c6_bottleneck_formula (by decide) (by decide)
    (compute_bottleneck_scores_ok (by decide)) (by decide)]
  decide

theorem head_isSome_of_ne_nil {l : List α} (h : l ≠ []) :
    l.head?.isSome = true := by
  cases l with
  | nil => exact absurd rfl h
  | cons a l => rfl

/-- Claim C7: for every well-formed input graph the reported `graph_depth`
equals the edge count of the reported critical path, `len(path) − 1`
(truncated subtraction is the clamp to `0` for the empty graph). -/
theorem c7_graph_depth_eq {G : DiGraph String} (hwf : Wf G)
    {r : Report String} (hr : analyze_dag G = Except.ok r) :
    r.graph_depth = r.critical_path.length - 1 := by
  by_cases hdag : is_directed_acyclic_graph G = true
  · unfold analyze_dag at hr
    rw [if_pos hdag, analyze_pure_dag_ok hdag] at hr
    have hrr : r = pureReport G := by
      injection hr with h
      exact h.symm
    subst hrr
    rfl
  · unfold analyze_dag at hr
    rw [if_neg hdag, analyze_with_condensation_ok hwf] at hr
    have hrr : r = condReport G := by
      injection hr with h
      exact h.symm
    subst hrr
    have hcyc : is_directed_acyclic_graph G = false := by
      cases h : is_directed_acyclic_graph G
      · rfl
      · exact absurd h hdag
    have hGne : G.nodes ≠ [] := by
      intro hnil
      apply hdag
      apply List.all_eq_true.mpr
      intro e he
      obtain ⟨h1, _⟩ := hwf.2 e he
      rw [hnil] at h1
      cases h1
    have hCwf : Wf (condensation G) := condensation_wf hwf
    have hCdag := condensation_acyclic hwf
    have hCne : (condensation G).nodes ≠ [] := by
      obtain ⟨v, hv⟩ := List.exists_mem_of_ne_nil _ hGne
      have hlt := sccIdx_lt hv
      intro hnil
      unfold condensation at hnil
      simp only [List.range_eq_nil] at hnil
      omega
    obtain ⟨b, hbC, hlast, hlen, hmax, hmem⟩ :=
      dag_longest_path_spec hCwf hCdag hCne
    have hbej : b < (sccs G).length := by
      have : b ∈ List.range (sccs G).length := hbC
      simpa [List.mem_range] using this
    have hcplen : (condReport G).critical_path.length =
        (dag_longest_path (condensation G)).length := by
      have hcp : (condReport G).critical_path =
          (dag_longest_path (condensation G)).filterMap
            (fun i => ((sccs G).getD i []).head?) := rfl
      rw [hcp]
      apply length_filterMap_all_some
      intro i hi
      have hiC : i ∈ (condensation G).nodes := hmem i hi
      have hilt : i < (sccs G).length := by
        have : i ∈ List.range (sccs G).length := hiC
        simpa [List.mem_range] using this
      rw [List.getD_eq_getElem (sccs G) [] hilt]
      apply head_isSome_of_ne_nil
      obtain ⟨rp, hrep, hrnodes, hentry, _⟩ := sccs_entry hilt
      intro hnil
      have : rp ∈ (sccs G).get ⟨i, hilt⟩ := by
        rw [hentry, mem_sccOf]
        exact ⟨hrnodes, sameSCC_refl rp⟩
      rw [List.get_eq_getElem] at this
      rw [hnil] at this
      cases this
    have hgd : (condReport G).graph_depth =
        ((G.nodes.map (fun v =>
          (v, lookupD (depth_dict (condensation G)) (sccIdx G v) 0))).map
            Prod.snd).foldl Nat.max 0 := rfl
    have hVL : (G.nodes.map (fun v =>
        (v, lookupD (depth_dict (condensation G)) (sccIdx G v) 0))).map
          Prod.snd =
        G.nodes.map (fun v =>
          lookupD (depth_dict (condensation G)) (sccIdx G v) 0) := by
      rw [List.map_map]
      rfl
    have hfold : (G.nodes.map (fun v =>
        lookupD (depth_dict (condensation G)) (sccIdx G v) 0)).foldl
          Nat.max 0 = lookupD (depth_dict (condensation G)) b 0 := by
      apply Nat.le_antisymm
      · apply foldl_max_le (Nat.zero_le _)
        intro x hx
        obtain ⟨v, hv, hvx⟩ := List.mem_map.mp hx
        rw [← hvx]
        apply hmax
        unfold condensation
        simpa [List.mem_range] using sccIdx_lt hv
      · obtain ⟨rp, hrep, hrnodes, hentry, _⟩ := sccs_entry hbej
        have hidx : sccIdx G rp = b := by
          have hmemscc : rp ∈ (sccs G).get ⟨b, hbej⟩ := by
            rw [hentry, mem_sccOf]
            exact ⟨hrnodes, sameSCC_refl rp⟩
          exact (sccIdx_of_mem hwf.1 hmemscc).2
        apply mem_le_foldl_max
        apply List.mem_map.mpr
        exact ⟨rp, hrnodes, by rw [hidx]⟩
    rw [hgd, hVL, hfold, hcplen, hlen]
    omega

/-- Witness for C7 on the cyclic scenario-C graph. -/
theorem c7_witness :
    (condReport (⟨["A", "B", "C", "D"],
      [("A", "B"), ("B", "C"), ("C", "A"), ("C", "D")]⟩ : DiGraph String)).graph_depth =
    (condReport (⟨["A", "B", "C", "D"],
      [("A", "B"), ("B", "C"), ("C", "A"), ("C", "D")]⟩ : DiGraph String)).critical_path.length
      - 1 :=
  c7_graph_depth_eq (G := ⟨["A", "B", "C", "D"],
      [("A", "B"), ("B", "C"), ("C", "A"), ("C", "D")]⟩) (by decide)
    (by
      unfold analyze_dag
      rw [if_neg (by decide)]
      exact analyze_with_condensation_ok (by decide))

/-- Claim C8: on a DAG, `find_critical_path_to` fails (with the
`Target node not in graph` error) exactly when the target is not a node; the
function reads the graph but never mutates anything (the embedding is a pure
function of `G`), so a failed query leaves every other computation
unchanged. -/
theorem c8_target_not_found_iff {G : DiGraph String}
    (hdag : is_directed_acyclic_graph G = true) (t : String) :
    (∃ s, find_critical_path_to G t = Except.error s) ↔ t ∉ G.nodes := by
  unfold find_critical_path_to
  by_cases ht : t ∉ G.nodes
  · rw [if_pos ht]
    exact ⟨fun _ => ht, fun _ => ⟨_, rfl⟩⟩
  · rw [if_neg ht]
    unfold ensure_dag
    rw [if_pos hdag]
    constructor
    · rintro ⟨s, hs⟩
      cases hs
    · intro h
      exact absurd h ht

/-- Witness for C8: querying the diamond for the absent node `Z` fails. -/
theorem c8_witness :
    ∃ s, find_critical_path_to (⟨["A", "B", "C", "D"],
      [("A", "B"), ("A", "C"), ("B", "D"), ("C", "D")]⟩ : DiGraph String)
      "Z" = Except.error s :=
  (c8_target_not_found_iff (G := ⟨["A", "B", "C", "D"],
    [("A", "B"), ("A", "C"), ("B", "D"), ("C", "D")]⟩) (by decide) "Z").mpr
    (by decide)

/-- Claim C9: the engine is deterministic and stateless — `dag.py` holds no
module-level mutable state (the result cache the spec mentions lives in the
calling layer), so the embedding is a pure function and two runs on the same
graph return identical depths, layers, sources, sinks and bottleneck scores,
and critical paths of equal length. -/
theorem c9_idempotent {G : DiGraph String} {r1 r2 : Report String}
    (h1 : analyze_dag G = Except.ok r1) (h2 : analyze_dag G = Except.ok r2) :
    r1.depths = r2.depths ∧ r1.layers = r2.layers ∧
    r1.sources = r2.sources ∧ r1.sinks = r2.sinks ∧
    r1.bottleneck_scores = r2.bottleneck_scores ∧
    r1.critical_path.length = r2.critical_path.length := by
  rw [h1] at h2
  have h : r1 = r2 := by
    injection h2 with h
  subst h
  exact ⟨rfl, rfl, rfl, rfl, rfl, rfl⟩

/-- Witness for C9 on the chain graph. -/
theorem c9_witness :
    (pureReport (⟨["A", "B", "C", "D"],
      [("A", "B"), ("B", "C"), ("C", "D")]⟩ : DiGraph String)).depths =
    (pureReport (⟨["A", "B", "C", "D"],
      [("A", "B"), ("B", "C"), ("C", "D")]⟩ : DiGraph String)).depths :=
  (c9_idempotent (G := ⟨["A", "B", "C", "D"],
      [("A", "B"), ("B", "C"), ("C", "D")]⟩)
    (by
      unfold analyze_dag
      rw [if_pos (by decide)]
      exact analyze_pure_dag_ok (by decide))
    (by
      unfold analyze_dag
      rw [if_pos (by decide)]
      exact analyze_pure_dag_ok (by decide))).1

/-- Claim C10: on a well-formed DAG containing the target,
`find_critical_path_to` returns a non-empty path whose last element is the
target. -/
theorem c10_path_ends_at_target {G : DiGraph String} (hwf : Wf G)
    (hdag : is_directed_acyclic_graph G = true) {t : String}
    (ht : t ∈ G.nodes) {p : List String}
    (hp : find_critical_path_to G t = Except.ok p) :
    p ≠ [] ∧ p.getLast? = some t := by
  obtain ⟨heq, hne, hlast⟩ := find_critical_path_to_spec hwf hdag ht
  rw [heq] at hp
  have h : dag_longest_path (subgraphOn G (ancClosure G t)) = p := by
    injection hp with h
  subst h
  exact ⟨hne, hlast⟩

/-- Witness for C10: the diamond queried at `D`. -/
theorem c10_witness :
    dag_longest_path (subgraphOn (⟨["A", "B", "C", "D"],
      [("A", "B"), ("A", "C"), ("B", "D"), ("C", "D")]⟩ : DiGraph String)
      (ancClosure (⟨["A", "B", "C", "D"],
        [("A", "B"), ("A", "C"), ("B", "D"), ("C", "D")]⟩ : DiGraph String)
        "D")) ≠ [] ∧
    (dag_longest_path (subgraphOn (⟨["A", "B", "C", "D"],
      [("A", "B"), ("A", "C"), ("B", "D"), ("C", "D")]⟩ : DiGraph String)
      (ancClosure (⟨["A", "B", "C", "D"],
        [("A", "B"), ("A", "C"), ("B", "D"), ("C", "D")]⟩ : DiGraph String)
        "D"))).getLast? = some "D" :=
  c10_path_ends_at_target (by decide) (by decide) (by decide)
    (find_critical_path_to_spec (by decide) (by decide) (by decide)).1

end Astrolabe
